import Mathlib

/-!
Verification of the stack-repair core of a patch-stack tool (the `repair`
and `spill` commands), shallowly embedded from `src/cmd/repair.rs` and
`src/cmd/spill.rs`.

Commits are modelled with `Nat` ids, the object store as a list of commits,
and the stack registry (`applied` / `unapplied` / `hidden` lists plus the
patch-name-to-commit binding) as explicit data.  The first-parent walk of
`run_repair_auto` and the merge-ancestry scan are fuel-based recursions; a
`none` result models the (in practice unreachable) cases where the loop does
not terminate or an object lookup fails.  The stack transaction machinery,
the patch-name generator and the external `stupid` helpers are not part of
the given sources; where an operation needs them they are modelled from the
spec and marked as such.
-/

deriving instance DecidableEq for Except

namespace StackRepair

abbrev CommitId := Nat
abbrev TreeId := Nat
abbrev PatchName := String

/-- Author / committer signature: an opaque identity plus a timestamp. -/
structure Signature where
  ident : Nat
  time : Int
deriving DecidableEq

/-- A commit object: id, ordered parent ids, tree id, author, committer and
raw message, mirroring the fields `repair.rs` / `spill.rs` read through
`gix::Commit`. -/
structure Commit where
  id : CommitId
  parents : List CommitId
  tree : TreeId
  author : Signature
  committer : Signature
  message : String
deriving DecidableEq

/-- The object store: commits addressed by id (`repo.find_commit`). -/
abbrev Repo := List Commit

def findCommit (repo : Repo) (cid : CommitId) : Option Commit :=
  repo.find? (fun c => c.id == cid)

/-- The stack registry snapshot: the three ordered patch lists, the
name-to-commit binding, the recorded base, the live branch head and the
protection flag (`stack.is_protected(&config)`). -/
structure Stack where
  applied : List PatchName
  unapplied : List PatchName
  hidden : List PatchName
  pcommit : List (PatchName × CommitId)
  base : CommitId
  branchHead : CommitId
  prot : Bool
deriving DecidableEq

namespace Stack

/-- `stack.all_patches()`: applied, then unapplied, then hidden, each in
order. -/
def allPatches (s : Stack) : List PatchName :=
  s.applied ++ s.unapplied ++ s.hidden

/-- `stack.get_patch_commit_id(pn)`: the commit id bound to a patch name
(0 stands for the lookup of an unbound name, which the tool never performs
on a well-formed stack). -/
def patchCommitId (s : Stack) (pn : PatchName) : CommitId :=
  (((s.pcommit.find? (fun e => e.1 == pn)).map (fun e => e.2)).getD 0)

/-- `stack.head()`: the commit of the topmost applied patch, or the base
when no patch is applied. -/
def head (s : Stack) : CommitId :=
  match s.applied.getLast? with
  | some pn => s.patchCommitId pn
  | none => s.base

/-- The `stack.all_patches().find(|pn| get_patch_commit_id(pn) == cid)`
lookup of `run_repair_auto`: the first patch name (applied, then unapplied,
then hidden order) bound to the given commit id. -/
def findPatch (s : Stack) (cid : CommitId) : Option PatchName :=
  s.allPatches.find? (fun pn => s.patchCommitId pn == cid)

/-- Well-formedness of a registry snapshot: every patch name appears in
exactly one of the three lists, once. -/
def WF (s : Stack) : Prop :=
  s.allPatches.Nodup

instance (s : Stack) : Decidable s.WF := by
  unfold WF; infer_instance

end Stack

/-- Error kinds of the repair/spill core (spec taxonomy, section 7). -/
inductive StgError where
  | protectedStack
  | repoFailure
  | noAppliedPatches
  | nameCollision
  | headTopMismatch
  | dirtyIndex
deriving DecidableEq

/-- The observable machine state: object store, stack registry (which also
carries the branch reference), the live index and an opaque worktree
fingerprint. -/
structure GitState where
  repo : Repo
  stack : Stack
  index : TreeId
  worktree : Nat
deriving DecidableEq

/-- Result of one orchestrator invocation: the state after the run (equal to
the input state whenever the operation aborted before its transaction
committed) together with either the operation's information output or the
error it failed with. -/
structure OpResult (α : Type) where
  state : GitState
  result : Except StgError α

/-! ## The first-parent walk of `run_repair_auto` (repair.rs lines 107-133) -/

/-- The walk loop of `run_repair_auto`: starting at `c`, while the current
commit has exactly one parent, look it up among all patches; a found patch
is pushed onto `ap` and flushes `mb` (maybe-patchify) into `pf` (patchify),
an unfound commit is pushed onto `mb`; after advancing to the parent, if the
parent is the recorded base, `mb` is flushed into `pf` and the walk stops.
Fuel bounds the recursion; `none` models a missing parent object or a
non-terminating ancestry. -/
def walkAux (repo : Repo) (s : Stack) :
    Nat → Commit → List PatchName → List Commit → List Commit →
    Option (List PatchName × List Commit × Commit)
  | 0, _, _, _, _ => none
  | Nat.succ fuel, c, ap, pf, mb =>
    match c.parents with
    | [pid] =>
      match findCommit repo pid with
      | none => none
      | some parent =>
        match s.findPatch c.id with
        | some pn =>
          if s.base = parent.id then
            some (ap ++ [pn], pf ++ mb, parent)
          else
            walkAux repo s fuel parent (ap ++ [pn]) (pf ++ mb) []
        | none =>
          if s.base = parent.id then
            some (ap, pf ++ (mb ++ [c]), parent)
          else
            walkAux repo s fuel parent ap pf (mb ++ [c])
    | _ => some (ap, pf, c)

/-- Outcome of the walk after the final `applied.reverse()` and
`patchify.reverse()`: re-identified applied patches bottom-most first,
commits to patchify in chronological order, and the commit at which the walk
stopped. -/
structure RepairWalk where
  applied : List PatchName
  patchify : List Commit
  stop : Commit
deriving DecidableEq

def repairWalk (repo : Repo) (s : Stack) (fuel : Nat) : Option RepairWalk :=
  match findCommit repo s.branchHead with
  | none => none
  | some h =>
    match walkAux repo s fuel h [] [] [] with
    | none => none
    | some (ap, pf, stop) => some ⟨ap.reverse, pf.reverse, stop⟩

/-! ## The first-parent chain (analysis-side view of the same walk)

`chainAux` records the commits the loop body processes, in walk order
(branch head first), the stop commit, and whether the walk stopped because
the advanced-to parent was the recorded base or because the current commit
did not have exactly one parent. -/

inductive StopKind where
  | nonlinear
  | atBase
deriving DecidableEq

def chainAux (repo : Repo) (s : Stack) :
    Nat → Commit → Option (List Commit × Commit × StopKind)
  | 0, _ => none
  | Nat.succ fuel, c =>
    match c.parents with
    | [pid] =>
      match findCommit repo pid with
      | none => none
      | some parent =>
        if s.base = parent.id then
          some ([c], parent, StopKind.atBase)
        else
          match chainAux repo s fuel parent with
          | none => none
          | some (ch, stop, k) => some (c :: ch, stop, k)
    | _ => some ([], c, StopKind.nonlinear)

def repairChain (repo : Repo) (s : Stack) (fuel : Nat) :
    Option (List Commit × Commit × StopKind) :=
  match findCommit repo s.branchHead with
  | none => none
  | some h => chainAux repo s fuel h

/-- The patch names found on a chain, in walk order (top-down). -/
def foundOn (s : Stack) (ch : List Commit) : List PatchName :=
  ch.filterMap (fun c => s.findPatch c.id)

/-- The patchify/maybe-patchify bookkeeping replayed over a chain: a found
commit flushes the maybe buffer into the patchify buffer, an unfound commit
joins the maybe buffer. -/
def trailFlush (s : Stack) : List Commit → List Commit → List Commit →
    List Commit × List Commit
  | [], pf, mb => (pf, mb)
  | c :: ch, pf, mb =>
    match s.findPatch c.id with
    | some _ => trailFlush s ch (pf ++ mb) []
    | none => trailFlush s ch pf (mb ++ [c])

/-- The commits the walk patchifies (in walk order, before the final
reversal), given the chain and the stop kind: stopping at the base flushes
the pending maybe buffer, stopping at a non-linear commit drops it. -/
def flushAcc (s : Stack) (ch : List Commit) (k : StopKind)
    (pf mb : List Commit) : List Commit :=
  match k with
  | StopKind.atBase => (trailFlush s ch pf mb).1 ++ (trailFlush s ch pf mb).2
  | StopKind.nonlinear => (trailFlush s ch pf mb).1

/-! ## The merge-ancestry scan (repair.rs lines 136-170) -/

/-- Insertion into an `IndexSet`: appends when absent, keeps order. -/
def isetInsert (l : List CommitId) (x : CommitId) : List CommitId :=
  if l.contains x then l else l ++ [x]

/-- Union of `IndexSet`s: keeps the left order, appends unseen elements of
the right in order. -/
def isetUnion (a b : List CommitId) : List CommitId :=
  b.foldl isetInsert a

/-- Dedup preserving first occurrences (collecting parent ids into an
`IndexSet`). -/
def isetOf (l : List CommitId) : List CommitId :=
  l.foldl isetInsert []

/-- The reachability scan over the ancestry of the stop commit: pop the last
element of `todo`, mark it seen, enqueue its unseen parents, and count the
popped commit when some patch is bound to it.  Returns the number of such
commits. -/
def scanAux (repo : Repo) (s : Stack) :
    Nat → List CommitId → List CommitId → Nat → Option Nat
  | 0, _, _, _ => none
  | Nat.succ fuel, todo, seen, cnt =>
    match todo.getLast? with
    | none => some cnt
    | some tid =>
      let todo1 := todo.dropLast
      let seen1 := isetInsert seen tid
      match findCommit repo tid with
      | none => none
      | some c =>
        let unseenParents := (isetOf c.parents).filter (fun p => !(seen1.contains p))
        let todo2 := isetUnion todo1 unseenParents
        let cnt1 := if s.allPatches.any (fun pn => s.patchCommitId pn == tid) then cnt + 1 else cnt
        scanAux repo s fuel todo2 seen1 cnt1

/-- The guarded scan: `run_repair_auto` performs the reachability scan
exactly when the stop commit's id differs from the recorded base, and warns
when the count is positive.  Returns `some none` when no scan ran and
`some (some (stopId, count))` when it did. -/
def runScan (repo : Repo) (s : Stack) (fuel : Nat) (stop : Commit) :
    Option (Option (CommitId × Nat)) :=
  if stop.id = s.base then some none
  else
    match scanAux repo s fuel [stop.id] [] 0 with
    | none => none
    | some n => some (some (stop.id, n))

/-! ## Patch name generation (modelled from the spec) -/

/-- Modelled from the spec: `PatchName::make` (not part of the given
sources) extracts the message title, trims it, normalises non-alphanumeric
characters into hyphens, lowercases, and truncates to the length limit. -/
def makeName (msg : String) (limit : Nat) : String :=
  let title := msg.data.takeWhile (fun ch => ch != '\n')
  let trimmed :=
    ((title.dropWhile (fun ch => ch.isWhitespace)).reverse.dropWhile
      (fun ch => ch.isWhitespace)).reverse
  let slug := trimmed.map (fun ch => if ch.isAlphanum then ch.toLower else '-')
  String.mk (slug.take limit)

/-- Modelled from the spec: `PatchName::uniquify` (not part of the given
sources) appends the minimal numeric suffix so that the result avoids
`disallow` minus `allow`.  The fuel argument bounds the suffix search. -/
def uniquifyAux (base : String) (allow disallow : List String) :
    Nat → Nat → Option String
  | 0, _ => none
  | Nat.succ fuel, n =>
    let cand := if n = 0 then base else base ++ "-" ++ toString n
    if disallow.contains cand && !(allow.contains cand) then
      uniquifyAux base allow disallow fuel (n + 1)
    else
      some cand

def uniquify (base : String) (allow disallow : List String) : Option String :=
  uniquifyAux base allow disallow (disallow.length + 1) 0

/-! ## The repair transaction (repair.rs lines 203-232) -/

/-- The patchify loop inside the transaction: for each commit, derive a
candidate name from its message, uniquify it against `trans.all_patches()`,
and `new_applied` it (append to applied, bind to the commit).  Mirrors the
`for commit in patchify` loop; the extra membership test models
`new_applied`'s no-collision requirement. -/
def patchifyLoop (limit : Nat) :
    Stack → List PatchName → List Commit → Option (Stack × List PatchName)
  | s, created, [] => some (s, created)
  | s, created, c :: rest =>
    match uniquify (makeName c.message limit) [] s.allPatches with
    | none => none
    | some pn =>
      if s.allPatches.contains pn then none
      else
        patchifyLoop limit
          { s with
            applied := s.applied ++ [pn]
            pcommit := (pn, c.id) :: s.pcommit }
          (created ++ [pn]) rest

/-- Information output of a successful auto repair: the names of the newly
created patches, the scan outcome (`some (mergeId, count)` when the
reachability scan ran), and whether the hidden-below-merge warning was
printed. -/
structure RepairInfo where
  created : List PatchName
  mergeScan : Option (CommitId × Nat)
  warned : Bool
deriving DecidableEq

/-- Whether the hidden-below-merge warning is printed: the scan ran and
counted at least one patch commit in the merge ancestry. -/
def scanWarn (scan : Option (CommitId × Nat)) : Bool :=
  match scan with
  | some p => decide (0 < p.2)
  | none => false

/-- The recomposition of the three lists (repair.rs lines 172-192 plus the
`repair_appliedness` transaction call): the new applied list is the walk's
result, the new unapplied list is old applied minus found followed by old
unapplied minus found, and the new hidden list is old hidden minus found. -/
def recomposeLists (s : Stack) (ap : List PatchName) : Stack :=
  { s with
    applied := ap
    unapplied :=
      s.applied.filter (fun pn => !(ap.contains pn)) ++
      s.unapplied.filter (fun pn => !(ap.contains pn))
    hidden := s.hidden.filter (fun pn => !(ap.contains pn)) }

/-- The auto mode of `repair` (`run_repair_auto`): protected check, the
first-parent walk, the guarded merge-ancestry scan, the recomposition of the
three lists (`repair_appliedness`), and the patchify loop.  The transaction
runs with `use_index_and_worktree(false)`, so neither the index nor the
worktree is touched, and the branch reference is not moved. -/
def repairAuto (st : GitState) (limit fuel : Nat) : OpResult RepairInfo :=
  if st.stack.prot then ⟨st, Except.error StgError.protectedStack⟩
  else
    match repairWalk st.repo st.stack fuel with
    | none => ⟨st, Except.error StgError.repoFailure⟩
    | some w =>
      match runScan st.repo st.stack fuel w.stop with
      | none => ⟨st, Except.error StgError.repoFailure⟩
      | some scan =>
        match patchifyLoop limit (recomposeLists st.stack w.applied) [] w.patchify with
        | none => ⟨st, Except.error StgError.nameCollision⟩
        | some (s2, created) =>
          ⟨{ st with stack := s2 },
            Except.ok
              { created := created
                mergeScan := scan
                warned := scanWarn scan }⟩

/-! ## Reset repair (repair.rs lines 237-277) -/

/-- The reset mode of `repair` (`run_repair_reset`): protected check, the
already-matching short circuit, and otherwise a transaction that resets the
stack state.  The new state is modelled from the spec (the
`reset_branch_state` helper is not part of the given sources): applied
becomes empty, unapplied becomes previous applied ++ previous unapplied,
hidden is unchanged, and the recorded branch head is the live one.  The
returned `Bool` is `true` exactly when the already-matching message was
printed. -/
def repairReset (st : GitState) : OpResult Bool :=
  if st.stack.prot then ⟨st, Except.error StgError.protectedStack⟩
  else if st.stack.branchHead = st.stack.head then ⟨st, Except.ok true⟩
  else
    let s := st.stack
    let s1 : Stack :=
      { s with
        applied := []
        unapplied := s.applied ++ s.unapplied }
    ⟨{ st with stack := s1 }, Except.ok false⟩

/-! ## Spill (spill.rs) -/

/-- Flags of the `spill` invocation. -/
structure SpillFlags where
  reset : Bool
  cdiad : Bool
  pathspecs : Option (List String)
  annotate : Option String
deriving DecidableEq

/-- Information output of a successful spill. -/
structure SpillInfo where
  patchname : PatchName
  newCommitId : CommitId
  treeId : TreeId
  reflogMsg : String
deriving DecidableEq

/-- A fresh object id for `commit_ex`'s newly written commit. -/
def freshId (repo : Repo) : CommitId :=
  (repo.map (fun c => c.id)).foldr max 0 + 1

/-- The precondition checks and object lookups of `spill` that run before
its transaction, in source order: resolvable branch head, clean index
(index equal to the HEAD commit's tree), branch head equal to the stack's
head, a topmost applied patch, and resolvable patch commit and first
parent.  Returns the topmost patch's name, its commit and the parent
commit. -/
def spillLookup (st : GitState) : Except StgError (PatchName × Commit × Commit) :=
  match findCommit st.repo st.stack.branchHead with
  | none => Except.error StgError.repoFailure
  | some headCommit =>
    if st.index ≠ headCommit.tree then Except.error StgError.dirtyIndex
    else if st.stack.branchHead ≠ st.stack.head then
      Except.error StgError.headTopMismatch
    else
      match st.stack.applied.getLast? with
      | none => Except.error StgError.noAppliedPatches
      | some patchname =>
        match findCommit st.repo (st.stack.patchCommitId patchname) with
        | none => Except.error StgError.repoFailure
        | some patchCommit =>
          match patchCommit.parents.head? with
          | none => Except.error StgError.repoFailure
          | some parentId =>
            match findCommit st.repo parentId with
            | none => Except.error StgError.repoFailure
            | some parentCommit => Except.ok (patchname, patchCommit, parentCommit)

/-- The new tree of the spill: the parent's tree, or — with pathspecs — the
result of the external path-limited tree diff, modelled from the spec as the
function argument `diffFn patchTree parentTree pathspecs` (the temporary
index machinery is not part of the given sources). -/
def spillTree (flags : SpillFlags) (diffFn : TreeId → TreeId → List String → TreeId)
    (patchCommit parentCommit : Commit) : TreeId :=
  match flags.pathspecs with
  | some ps => diffFn patchCommit.tree parentCommit.tree ps
  | none => parentCommit.tree

/-- The committer of the replacement commit: the current user, with the
timestamp forced to the author's when committer-date-is-author-date is
set. -/
def spillCommitter (flags : SpillFlags) (defaultCommitter author : Signature) : Signature :=
  if flags.cdiad then { defaultCommitter with time := author.time }
  else defaultCommitter

/-- The replacement commit `commit_ex` writes: same parents, author and
message as the old top commit, the computed tree, and the given committer. -/
def spillNewCommit (repo : Repo) (patchCommit : Commit) (treeId : TreeId)
    (committer : Signature) : Commit :=
  { id := freshId repo
    parents := patchCommit.parents
    tree := treeId
    author := patchCommit.author
    committer := committer
    message := patchCommit.message }

/-- The reflog message of the spill transaction. -/
def spillReflog (patchname : PatchName) (note : Option String) : String :=
  match note with
  | some a => "spill " ++ patchname ++ "\n\n" ++ a
  | none => "spill " ++ patchname

/-- The `spill` orchestrator.  Precondition checks and lookups
(`spillLookup`), computation of the new tree, synthesis of the replacement
commit (written into the object store before the transaction), the single
`update_patch` transaction (whose execution rejects a protected stack,
modelled from the spec since the transaction machinery is not part of the
given sources), and the optional index reset.  The worktree is never
written. -/
def spill (st : GitState) (flags : SpillFlags)
    (diffFn : TreeId → TreeId → List String → TreeId)
    (defaultCommitter : Signature) : OpResult SpillInfo :=
  match spillLookup st with
  | Except.error e => ⟨st, Except.error e⟩
  | Except.ok (patchname, patchCommit, parentCommit) =>
    let treeId := spillTree flags diffFn patchCommit parentCommit
    let newCommit :=
      spillNewCommit st.repo patchCommit treeId
        (spillCommitter flags defaultCommitter patchCommit.author)
    let repo1 := st.repo ++ [newCommit]
    if st.stack.prot then
      ⟨{ st with repo := repo1 }, Except.error StgError.protectedStack⟩
    else
      let stack1 :=
        { st.stack with pcommit := (patchname, newCommit.id) :: st.stack.pcommit }
      let st1 : GitState := { st with repo := repo1, stack := stack1 }
      let st2 := if flags.reset then { st1 with index := treeId } else st1
      ⟨st2,
        Except.ok
          { patchname := patchname
            newCommitId := newCommit.id
            treeId := treeId
            reflogMsg := spillReflog patchname flags.annotate }⟩

/-- Whether the precondition checks of `spill` pass, i.e. its transaction is
reached. -/
def spillPrechecksPass (st : GitState) : Bool :=
  match spillLookup st with
  | Except.ok _ => true
  | Except.error _ => false

/-! ## Concrete fixtures

Small concrete repositories and stacks used to instantiate the theorems
below (witnesses and counterexamples). -/

def sig0 : Signature := ⟨0, 0⟩

/-- Fixture: a linear branch `base(1) ← p(2) ← x(3)` where commit 2 is bound
to applied patch `p` and commit 3 is a plain commit to patchify. -/
def wBase : Commit := ⟨1, [], 11, sig0, sig0, "base"⟩

def wP : Commit := ⟨2, [1], 12, sig0, sig0, "p"⟩

def wX : Commit := ⟨3, [2], 13, sig0, sig0, "feat x"⟩

def wStack : Stack := ⟨["p"], ["u"], ["h"], [("p", 2), ("u", 7), ("h", 8)], 1, 3, false⟩

def wState : GitState := ⟨[wBase, wP, wX], wStack, 0, 0⟩

/-- The stack and state produced by repairing `wState` (patch `p`
re-identified, commit 3 patchified as `feat-x`). -/
def wStack2 : Stack :=
  ⟨["p", "feat-x"], ["u"], ["h"],
    [("feat-x", 3), ("p", 2), ("u", 7), ("h", 8)], 1, 3, false⟩

def wState2 : GitState := ⟨[wBase, wP, wX], wStack2, 0, 0⟩

/-- Fixture for the idempotence counterexample: branch
`b(0) ← P(1) ← Y(2) ← X(3)`, unapplied patches `q ↦ 3` and `r ↦ 1`, so the
walk finds patches interleaved with a plain commit. -/
def r7B : Commit := ⟨0, [], 20, sig0, sig0, "b"⟩

def r7P : Commit := ⟨1, [0], 21, sig0, sig0, "P"⟩

def r7Y : Commit := ⟨2, [1], 22, sig0, sig0, "y"⟩

def r7X : Commit := ⟨3, [2], 23, sig0, sig0, "X"⟩

def r7Stack : Stack := ⟨[], ["q", "r"], [], [("q", 3), ("r", 1)], 0, 3, false⟩

def r7State : GitState := ⟨[r7B, r7P, r7Y, r7X], r7Stack, 0, 0⟩

/-- Fixture for the base-patchified counterexample: branch head equals the
recorded base (commit 1), whose ancestry holds a patch commit below it. -/
def c5Root : Commit := ⟨3, [], 31, sig0, sig0, "root"⟩

def c5P : Commit := ⟨2, [3], 32, sig0, sig0, "pp"⟩

def c5Head : Commit := ⟨1, [2], 33, sig0, sig0, "zz"⟩

def c5Stack : Stack := ⟨[], ["p"], [], [("p", 2)], 1, 1, false⟩

def c5State : GitState := ⟨[c5Root, c5P, c5Head], c5Stack, 0, 0⟩

/-- Fixture for the scan-condition counterexample: the branch head is a root
commit (zero parents) different from the recorded base. -/
def c3Root : Commit := ⟨1, [], 41, sig0, sig0, "m"⟩

def c3Stack : Stack := ⟨[], ["p"], [], [("p", 1)], 0, 1, false⟩

def c3State : GitState := ⟨[c3Root], c3Stack, 0, 0⟩

/-- Fixture for spill: `base(1, tree 5) ← top(2, tree 9)` with applied patch
`p ↦ 2`, clean index. -/
def spBase : Commit := ⟨1, [], 5, sig0, sig0, "base"⟩

def spTop : Commit := ⟨2, [1], 9, ⟨7, 70⟩, sig0, "topmsg"⟩

def spStack : Stack := ⟨["p"], [], [], [("p", 2)], 1, 2, false⟩

def spState : GitState := ⟨[spBase, spTop], spStack, 9, 55⟩

def spStackProt : Stack := ⟨["p"], [], [], [("p", 2)], 1, 2, true⟩

def spStateProt : GitState := ⟨[spBase, spTop], spStackProt, 9, 55⟩

/-- An arbitrary external path-limited diff behavior: the filtered tree id
is 99 (the patch keeps changes outside the pathspecs, so the result differs
from the parent's tree). -/
def diff99 : TreeId → TreeId → List String → TreeId := fun _ _ _ => 99

def dcUser : Signature := ⟨42, 100⟩

/-- Fixture for the protected-error-kind counterexample: a protected stack
with no applied patches and a clean index at commit 5. -/
def c8Base : Commit := ⟨5, [], 7, sig0, sig0, "b"⟩

def c8Stack : Stack := ⟨[], [], [], [], 5, 5, true⟩

def c8State : GitState := ⟨[c8Base], c8Stack, 7, 0⟩

/-- Fixture with two patch names bound to the same commit id 2. -/
def dupStack : Stack := ⟨["a"], ["b"], [], [("a", 2), ("b", 2)], 1, 2, false⟩

def dupState : GitState := ⟨[wBase, wP], dupStack, 0, 0⟩

/-! ## Basic lemmas -/

theorem findCommit_id {repo : Repo} {cid : CommitId} {c : Commit}
    (h : findCommit repo cid = some c) : c.id = cid := by
  have := List.find?_some h
  simpa using this

theorem findPatch_bound {s : Stack} {cid : CommitId} {pn : PatchName}
    (h : s.findPatch cid = some pn) : s.patchCommitId pn = cid := by
  have := List.find?_some h
  simpa using this

theorem findPatch_mem {s : Stack} {cid : CommitId} {pn : PatchName}
    (h : s.findPatch cid = some pn) : pn ∈ s.allPatches :=
  List.mem_of_find?_eq_some h

theorem findPatch_eq_none {s : Stack} {cid : CommitId} :
    s.findPatch cid = none ↔ ∀ pn ∈ s.allPatches, s.patchCommitId pn ≠ cid := by
  unfold Stack.findPatch
  rw [List.find?_eq_none]
  simp

/-- A `find?` that has a member satisfying the predicate, which is moreover
the only satisfying member, returns it. -/
theorem find?_eq_some_of_unique {α : Type} {p : α → Bool} {L : List α} {a : α}
    (ha : a ∈ L) (hpa : p a = true) (huniq : ∀ b ∈ L, p b = true → b = a) :
    L.find? p = some a := by
  induction L with
  | nil => cases ha
  | cons c L ih =>
    by_cases hc : p c = true
    · have : c = a := huniq c (by simp) hc
      subst this
      simp [List.find?_cons, hc]
    · have hca : a ≠ c := by
        intro h; subst h; exact hc hpa
      have ha' : a ∈ L := by
        rcases List.mem_cons.mp ha with h | h
        · exact absurd h hca
        · exact h
      rw [List.find?_cons]
      simp only [hc]
      exact ih ha' (fun b hb hpb => huniq b (List.mem_cons_of_mem _ hb) hpb)

theorem mem_foundOn {s : Stack} {ch : List Commit} {pn : PatchName} :
    pn ∈ foundOn s ch ↔ ∃ c ∈ ch, s.findPatch c.id = some pn := by
  unfold foundOn
  exact List.mem_filterMap

/-! ## The walk computes the chain classification -/

theorem walkAux_eq (repo : Repo) (s : Stack) :
    ∀ (fuel : Nat) (c : Commit) (ap : List PatchName) (pf mb : List Commit),
    walkAux repo s fuel c ap pf mb =
      (chainAux repo s fuel c).map
        (fun r => (ap ++ foundOn s r.1, flushAcc s r.1 r.2.2 pf mb, r.2.1)) := by
  intro fuel
  induction fuel with
  | zero => intro c ap pf mb; simp [walkAux, chainAux]
  | succ fuel ih =>
    intro c ap pf mb
    rw [walkAux, chainAux]
    rcases hp : c.parents with _ | ⟨pid, rest⟩
    · simp [foundOn, flushAcc, trailFlush]
    · rcases rest with _ | ⟨q, rest⟩
      · cases hfc : findCommit repo pid with
        | none => simp [hfc]
        | some parent =>
          simp only [hfc]
          cases hfp : s.findPatch c.id with
          | some pn =>
            by_cases hb : s.base = parent.id
            · simp only [if_pos hb]
              simp [foundOn, hfp, flushAcc, trailFlush]
            · simp only [if_neg hb]
              rw [ih]
              cases hch : chainAux repo s fuel parent with
              | none => simp [hch]
              | some r =>
                rcases r with ⟨ch, stop, k⟩
                have hf : foundOn s (c :: ch) = pn :: foundOn s ch := by
                  simp [foundOn, List.filterMap_cons, hfp]
                have htr : trailFlush s (c :: ch) pf mb = trailFlush s ch (pf ++ mb) [] := by
                  simp [trailFlush, hfp]
                simp only [Option.map_some']
                refine congrArg some (Prod.ext ?_ (Prod.ext ?_ rfl))
                · show (ap ++ [pn]) ++ foundOn s ch = ap ++ foundOn s (c :: ch)
                  rw [hf, List.append_assoc]
                  rfl
                · show flushAcc s ch k (pf ++ mb) [] = flushAcc s (c :: ch) k pf mb
                  cases k <;> simp [flushAcc, htr]
          | none =>
            by_cases hb : s.base = parent.id
            · simp only [if_pos hb]
              simp [foundOn, hfp, flushAcc, trailFlush]
            · simp only [if_neg hb]
              rw [ih]
              cases hch : chainAux repo s fuel parent with
              | none => simp [hch]
              | some r =>
                rcases r with ⟨ch, stop, k⟩
                have hf : foundOn s (c :: ch) = foundOn s ch := by
                  simp [foundOn, List.filterMap_cons, hfp]
                have htr : trailFlush s (c :: ch) pf mb = trailFlush s ch pf (mb ++ [c]) := by
                  simp [trailFlush, hfp]
                simp only [Option.map_some']
                refine congrArg some (Prod.ext ?_ (Prod.ext ?_ rfl))
                · show ap ++ foundOn s ch = ap ++ foundOn s (c :: ch)
                  rw [hf]
                · show flushAcc s ch k pf (mb ++ [c]) = flushAcc s (c :: ch) k pf mb
                  cases k <;> simp [flushAcc, htr]
      · simp [foundOn, flushAcc, trailFlush]

theorem repairWalk_eq (repo : Repo) (s : Stack) (fuel : Nat) :
    repairWalk repo s fuel =
      (repairChain repo s fuel).map
        (fun r => ⟨(foundOn s r.1).reverse, (flushAcc s r.1 r.2.2 [] []).reverse, r.2.1⟩) := by
  unfold repairWalk repairChain
  cases hfc : findCommit repo s.branchHead with
  | none => simp
  | some h =>
    simp only [walkAux_eq]
    cases chainAux repo s fuel h with
    | none => simp
    | some r => simp

/-! ## Chain and trail lemmas -/

/-- Every chain element is either the walk's first commit or a commit whose
id differs from the recorded base (the base check runs after advancing). -/
theorem chain_mem_cases {repo : Repo} {s : Stack} :
    ∀ {fuel : Nat} {c : Commit} {ch : List Commit} {stop : Commit} {k : StopKind},
    chainAux repo s fuel c = some (ch, stop, k) →
    ∀ x ∈ ch, x = c ∨ x.id ≠ s.base := by
  intro fuel
  induction fuel with
  | zero => intro c ch stop k h; simp [chainAux] at h
  | succ fuel ih =>
    intro c ch stop k h x hx
    rw [chainAux] at h
    split at h
    · split at h
      · simp at h
      · rename_i parent hfc
        split at h
        · rename_i hb
          simp at h
          obtain ⟨h1, _⟩ := h
          subst h1
          simp at hx
          subst hx
          exact Or.inl rfl
        · rename_i hb
          split at h
          · simp at h
          · rename_i r ch' stop' k' hch
            simp at h
            obtain ⟨h1, _⟩ := h
            subst h1
            rcases List.mem_cons.mp hx with hxc | hxm
            · exact Or.inl hxc
            · rcases ih hch x hxm with h' | h'
              · right
                rw [h']
                intro hxx
                exact hb hxx.symm
              · exact Or.inr h'
    · simp at h
      obtain ⟨h1, _⟩ := h
      subst h1
      cases hx

/-- When the walk stopped at the base, the stop commit's id is the base. -/
theorem chain_atBase_stop {repo : Repo} {s : Stack} :
    ∀ {fuel : Nat} {c : Commit} {ch : List Commit} {stop : Commit},
    chainAux repo s fuel c = some (ch, stop, StopKind.atBase) →
    stop.id = s.base := by
  intro fuel
  induction fuel with
  | zero => intro c ch stop h; simp [chainAux] at h
  | succ fuel ih =>
    intro c ch stop h
    rw [chainAux] at h
    split at h
    · split at h
      · simp at h
      · rename_i parent hfc
        split at h
        · rename_i hb
          simp only [Option.some.injEq, Prod.mk.injEq] at h
          obtain ⟨_, h2, _⟩ := h
          rw [← h2, hb]
        · rename_i hb
          split at h
          · simp at h
          · rename_i r ch' stop' k' hch
            simp only [Option.some.injEq, Prod.mk.injEq] at h
            obtain ⟨_, h2, h3⟩ := h
            subst h3
            rw [← h2]
            exact ih hch
    · simp at h

/-- When the walk stopped at a non-linear commit, that commit does not have
exactly one parent. -/
theorem chain_nonlinear_stop {repo : Repo} {s : Stack} :
    ∀ {fuel : Nat} {c : Commit} {ch : List Commit} {stop : Commit},
    chainAux repo s fuel c = some (ch, stop, StopKind.nonlinear) →
    stop.parents.length ≠ 1 := by
  intro fuel
  induction fuel with
  | zero => intro c ch stop h; simp [chainAux] at h
  | succ fuel ih =>
    intro c ch stop h
    rw [chainAux] at h
    split at h
    · split at h
      · simp at h
      · rename_i parent hfc
        split at h
        · simp at h
        · rename_i hb
          split at h
          · simp at h
          · rename_i r ch' stop' k' hch
            simp only [Option.some.injEq, Prod.mk.injEq] at h
            obtain ⟨_, h2, h3⟩ := h
            subst h3
            rw [← h2]
            exact ih hch
    · rename_i hshape
      simp only [Option.some.injEq, Prod.mk.injEq] at h
      obtain ⟨_, h2, _⟩ := h
      rw [← h2]
      intro hlen
      rcases hone : c.parents with _ | ⟨pid, rest⟩
      · rw [hone] at hlen; simp at hlen
      · rcases rest with _ | ⟨q, rest2⟩
        · exact hshape pid hone
        · rw [hone] at hlen; simp at hlen

theorem trailFlush_append (s : Stack) :
    ∀ (l₁ l₂ : List Commit) (pf mb : List Commit),
    trailFlush s (l₁ ++ l₂) pf mb =
      trailFlush s l₂ (trailFlush s l₁ pf mb).1 (trailFlush s l₁ pf mb).2 := by
  intro l₁
  induction l₁ with
  | nil => intro l₂ pf mb; simp [trailFlush]
  | cons c l₁ ih =>
    intro l₂ pf mb
    cases hfp : s.findPatch c.id with
    | some pn => simp [trailFlush, hfp, ih]
    | none => simp [trailFlush, hfp, ih]

/-- Every commit the trail bookkeeping holds came from the initial buffers
or the chain. -/
theorem trailFlush_mem (s : Stack) :
    ∀ (ch : List Commit) (pf mb : List Commit) (x : Commit),
    (x ∈ (trailFlush s ch pf mb).1 ∨ x ∈ (trailFlush s ch pf mb).2) →
    x ∈ pf ∨ x ∈ mb ∨ x ∈ ch := by
  intro ch
  induction ch with
  | nil => intro pf mb x h; simpa [trailFlush] using h
  | cons c ch ih =>
    intro pf mb x h
    cases hfp : s.findPatch c.id with
    | some pn =>
      rw [trailFlush, hfp] at h
      rcases ih (pf ++ mb) [] x h with h' | h' | h'
      · rcases List.mem_append.mp h' with h'' | h''
        · exact Or.inl h''
        · exact Or.inr (Or.inl h'')
      · cases h'
      · exact Or.inr (Or.inr (List.mem_cons_of_mem _ h'))
    | none =>
      rw [trailFlush, hfp] at h
      rcases ih pf (mb ++ [c]) x h with h' | h' | h'
      · exact Or.inl h'
      · rcases List.mem_append.mp h' with h'' | h''
        · exact Or.inr (Or.inl h'')
        · simp at h''
          subst h''
          exact Or.inr (Or.inr (List.mem_cons_self _ _))
      · exact Or.inr (Or.inr (List.mem_cons_of_mem _ h'))

/-- When every chain commit is bound to some patch, the trail flushes
everything and keeps nothing. -/
theorem trailFlush_allFound (s : Stack) :
    ∀ (ch : List Commit),
    (∀ c ∈ ch, (s.findPatch c.id).isSome) →
    trailFlush s ch [] [] = ([], []) := by
  intro ch
  induction ch with
  | nil => intro _; simp [trailFlush]
  | cons c ch ih =>
    intro h
    have hc := h c (List.mem_cons_self _ _)
    cases hfp : s.findPatch c.id with
    | none => rw [hfp] at hc; simp at hc
    | some pn =>
      rw [trailFlush, hfp]
      simpa using ih (fun d hd => h d (List.mem_cons_of_mem _ hd))

/-- When no chain commit is bound to a patch, nothing is flushed and the
maybe buffer accumulates the whole chain. -/
theorem trailFlush_noneFound (s : Stack) :
    ∀ (ch : List Commit) (mb : List Commit),
    (∀ c ∈ ch, s.findPatch c.id = none) →
    trailFlush s ch [] mb = ([], mb ++ ch) := by
  intro ch
  induction ch with
  | nil => intro mb _; simp [trailFlush]
  | cons c ch ih =>
    intro mb h
    have hc := h c (List.mem_cons_self _ _)
    rw [trailFlush, hc]
    rw [ih (mb ++ [c]) (fun d hd => h d (List.mem_cons_of_mem _ hd))]
    simp

/-- The flushed-plus-pending contents of the trail are exactly the unbound
chain commits, in order (behind the initial buffers). -/
theorem trailFlush_total (s : Stack) :
    ∀ (ch : List Commit) (pf mb : List Commit),
    (trailFlush s ch pf mb).1 ++ (trailFlush s ch pf mb).2 =
      pf ++ mb ++ ch.filter (fun c => (s.findPatch c.id).isNone) := by
  intro ch
  induction ch with
  | nil => intro pf mb; simp [trailFlush]
  | cons c ch ih =>
    intro pf mb
    cases hfp : s.findPatch c.id with
    | some pn =>
      rw [trailFlush, hfp, ih]
      simp [List.filter_cons, hfp]
    | none =>
      rw [trailFlush, hfp, ih]
      simp [List.filter_cons, hfp, List.append_assoc]

/-- The chain splits into a prefix whose unbound commits are exactly the
flushed ones and an unbound suffix that the trail still holds pending. -/
theorem trailFlush_split (s : Stack) :
    ∀ (ch : List Commit) (pf mb : List Commit),
    ∃ ch₁ ch₂, ch = ch₁ ++ ch₂ ∧
      (∀ c ∈ ch₂, s.findPatch c.id = none) ∧
      ((ch₁ = [] ∧ trailFlush s ch pf mb = (pf, mb ++ ch₂)) ∨
       trailFlush s ch pf mb =
         (pf ++ mb ++ ch₁.filter (fun c => (s.findPatch c.id).isNone), ch₂)) := by
  intro ch
  induction ch with
  | nil =>
    intro pf mb
    exact ⟨[], [], by simp, by simp, Or.inl ⟨rfl, by simp [trailFlush]⟩⟩
  | cons c ch ih =>
    intro pf mb
    cases hfp : s.findPatch c.id with
    | some pn =>
      obtain ⟨d₁, d₂, hsplit, hd₂, hcase⟩ := ih (pf ++ mb) []
      rcases hcase with ⟨hd1nil, heq⟩ | heq
      · subst hd1nil
        simp at hsplit
        refine ⟨[c], d₂, by simp [hsplit], hd₂, Or.inr ?_⟩
        rw [trailFlush, hfp, heq]
        simp [List.filter_cons, hfp]
      · refine ⟨c :: d₁, d₂, by simp [hsplit], hd₂, Or.inr ?_⟩
        rw [trailFlush, hfp, heq]
        simp [List.filter_cons, hfp]
    | none =>
      obtain ⟨d₁, d₂, hsplit, hd₂, hcase⟩ := ih pf (mb ++ [c])
      rcases hcase with ⟨hd1nil, heq⟩ | heq
      · subst hd1nil
        simp at hsplit
        refine ⟨[], c :: d₂, by simp [hsplit], ?_, Or.inl ⟨rfl, ?_⟩⟩
        · intro d hd
          rcases List.mem_cons.mp hd with h | h
          · rw [h]; exact hfp
          · exact hd₂ d h
        · rw [trailFlush, hfp, heq]
          simp
      · refine ⟨c :: d₁, d₂, by simp [hsplit], hd₂, Or.inr ?_⟩
        rw [trailFlush, hfp, heq]
        simp [List.filter_cons, hfp, List.append_assoc]

/-! ## Binding-update and patchify-loop lemmas -/

theorem patchCommitId_update_self {s s' : Stack} {pn : PatchName} {cid : CommitId}
    (h : s'.pcommit = (pn, cid) :: s.pcommit) :
    s'.patchCommitId pn = cid := by
  unfold Stack.patchCommitId
  rw [h, List.find?_cons_of_pos _ (by simp)]
  simp

theorem patchCommitId_update_other {s s' : Stack} {pn q : PatchName} {cid : CommitId}
    (h : s'.pcommit = (pn, cid) :: s.pcommit) (hne : q ≠ pn) :
    s'.patchCommitId q = s.patchCommitId q := by
  unfold Stack.patchCommitId
  rw [h, List.find?_cons_of_neg _ ?_]
  simp only [beq_iff_eq]
  exact fun hh => hne hh.symm

theorem patchifyLoop_spec (limit : Nat) :
    ∀ (cs : List Commit) (s : Stack) (acc : List PatchName) (s2 : Stack)
      (cr : List PatchName),
    patchifyLoop limit s acc cs = some (s2, cr) →
    ∃ ns : List PatchName,
      cr = acc ++ ns ∧
      s2.applied = s.applied ++ ns ∧
      s2.unapplied = s.unapplied ∧
      s2.hidden = s.hidden ∧
      s2.base = s.base ∧
      s2.branchHead = s.branchHead ∧
      s2.prot = s.prot ∧
      ns.Nodup ∧
      (∀ pn ∈ ns, pn ∉ s.allPatches) ∧
      List.Forall₂ (fun pn c => s2.patchCommitId pn = c.id) ns cs ∧
      (∀ pn, pn ∉ ns → s2.patchCommitId pn = s.patchCommitId pn) := by
  intro cs
  induction cs with
  | nil =>
    intro s acc s2 cr h
    rw [patchifyLoop] at h
    simp only [Option.some.injEq, Prod.mk.injEq] at h
    obtain ⟨h1, h2⟩ := h
    subst h1
    subst h2
    exact ⟨[], by simp, by simp, rfl, rfl, rfl, rfl, rfl, List.nodup_nil,
      by simp, List.Forall₂.nil, fun pn _ => rfl⟩
  | cons c cs ih =>
    intro s acc s2 cr h
    rw [patchifyLoop] at h
    split at h
    · simp at h
    · rename_i pn huniq
      split at h
      · simp at h
      · rename_i hfreshb
        have hfresh : pn ∉ s.allPatches := by
          intro hmem
          exact hfreshb (by simpa using hmem)
        obtain ⟨ns', hcr, happ, hun, hhid, hbase, hbh, hprot, hnd, hns'fresh,
          hfa, hpres⟩ := ih _ _ _ _ h
        have hpc : ({ s with applied := s.applied ++ [pn], pcommit := (pn, c.id) :: s.pcommit } : Stack).pcommit = (pn, c.id) :: s.pcommit := rfl
        have hall : ∀ x, x ∈ ({ s with applied := s.applied ++ [pn], pcommit := (pn, c.id) :: s.pcommit } : Stack).allPatches ↔ (x ∈ s.allPatches ∨ x = pn) := by
          intro x
          simp [Stack.allPatches]
          tauto
        have hpnmem : pn ∈ ({ s with applied := s.applied ++ [pn], pcommit := (pn, c.id) :: s.pcommit } : Stack).allPatches := by
          rw [hall]
          exact Or.inr rfl
        have hpnns' : pn ∉ ns' := fun hmem => hns'fresh pn hmem hpnmem
        refine ⟨pn :: ns', ?_, ?_, hun, hhid, hbase, hbh, hprot, ?_, ?_, ?_, ?_⟩
        · rw [hcr]
          simp
        · rw [happ]
          simp
        · exact List.nodup_cons.mpr ⟨hpnns', hnd⟩
        · intro q hq
          rcases List.mem_cons.mp hq with hq' | hq'
          · subst hq'
            exact hfresh
          · intro hmem
            exact hns'fresh q hq' ((hall q).mpr (Or.inl hmem))
        · refine List.Forall₂.cons ?_ hfa
          rw [hpres pn hpnns']
          exact patchCommitId_update_self hpc
        · intro q hq
          have hq1 : q ≠ pn := fun hh => hq (hh ▸ List.mem_cons_self _ _)
          have hq2 : q ∉ ns' := fun hh => hq (List.mem_cons_of_mem _ hh)
          rw [hpres q hq2]
          exact patchCommitId_update_other hpc hq1

/-! ## Scan lemmas -/

/-- The control flow of the reachability scan does not depend on the stack:
only the counted total does. -/
theorem scanAux_isSome_congr {repo : Repo} (s s' : Stack) :
    ∀ (fuel : Nat) (todo seen : List CommitId) (cnt cnt' : Nat),
    (scanAux repo s fuel todo seen cnt).isSome →
    (scanAux repo s' fuel todo seen cnt').isSome := by
  intro fuel
  induction fuel with
  | zero => intro todo seen cnt cnt' h; simp [scanAux] at h
  | succ fuel ih =>
    intro todo seen cnt cnt' h
    rw [scanAux] at h ⊢
    cases hgl : todo.getLast? with
    | none => simp [hgl]
    | some tid =>
      rw [hgl] at h
      simp only at h ⊢
      cases hfc : findCommit repo tid with
      | none => rw [hfc] at h; simp at h
      | some c =>
        rw [hfc] at h
        simp only at h ⊢
        exact ih _ _ _ _ h

/-! ## Extraction lemmas for the orchestrators -/

theorem repairAuto_protected {st : GitState} {limit fuel : Nat}
    (h : st.stack.prot = true) :
    repairAuto st limit fuel = ⟨st, Except.error StgError.protectedStack⟩ := by
  unfold repairAuto
  rw [if_pos h]

theorem repairReset_protected {st : GitState} (h : st.stack.prot = true) :
    repairReset st = ⟨st, Except.error StgError.protectedStack⟩ := by
  unfold repairReset
  rw [if_pos h]

theorem repairAuto_ok {st : GitState} {limit fuel : Nat} {info : RepairInfo}
    (h : (repairAuto st limit fuel).result = Except.ok info) :
    ∃ w scan s2,
      st.stack.prot = false ∧
      repairWalk st.repo st.stack fuel = some w ∧
      runScan st.repo st.stack fuel w.stop = some scan ∧
      patchifyLoop limit (recomposeLists st.stack w.applied) [] w.patchify =
        some (s2, info.created) ∧
      info.mergeScan = scan ∧
      info.warned = scanWarn scan ∧
      (repairAuto st limit fuel).state = { st with stack := s2 } := by
  unfold repairAuto at h ⊢
  split at h
  · simp at h
  · rename_i hprot
    split at h
    · simp at h
    · rename_i w hwalk
      split at h
      · simp at h
      · rename_i scan hscan
        split at h
        · simp at h
        · rename_i r s2 created hpatch
          simp only at h
          simp only [Except.ok.injEq] at h
          refine ⟨w, scan, s2, by simpa using hprot, hwalk, hscan, ?_, ?_, ?_, ?_⟩
          · rw [← h]
            exact hpatch
          · rw [← h]
          · rw [← h]
          · rw [if_neg hprot]

/-! ## Spill extraction lemmas -/

theorem spillLookup_ok {st : GitState} {pn : PatchName} {pc pac : Commit}
    (h : spillLookup st = Except.ok (pn, pc, pac)) :
    ∃ hc, findCommit st.repo st.stack.branchHead = some hc ∧
      st.index = hc.tree ∧
      st.stack.branchHead = st.stack.head ∧
      st.stack.applied.getLast? = some pn ∧
      findCommit st.repo (st.stack.patchCommitId pn) = some pc ∧
      ∃ pid, pc.parents.head? = some pid ∧ findCommit st.repo pid = some pac := by
  unfold spillLookup at h
  split at h
  · simp at h
  · rename_i hc hfc
    split at h
    · simp at h
    · rename_i hidx
      split at h
      · simp at h
      · rename_i hht
        split at h
        · simp at h
        · rename_i pn' hlast
          split at h
          · simp at h
          · rename_i pc' hpc
            split at h
            · simp at h
            · rename_i pid hpid
              split at h
              · simp at h
              · rename_i pac' hpac
                simp only [Except.ok.injEq, Prod.mk.injEq] at h
                obtain ⟨h1, h2, h3⟩ := h
                subst h1
                subst h2
                subst h3
                exact ⟨hc, hfc, by simpa using hidx, by simpa using hht, hlast,
                  hpc, pid, hpid, hpac⟩

theorem spill_ok {st : GitState} {flags : SpillFlags}
    {diffFn : TreeId → TreeId → List String → TreeId} {dc : Signature}
    {info : SpillInfo}
    (h : (spill st flags diffFn dc).result = Except.ok info) :
    ∃ pn pc pac,
      spillLookup st = Except.ok (pn, pc, pac) ∧
      st.stack.prot = false ∧
      info = { patchname := pn
               newCommitId := freshId st.repo
               treeId := spillTree flags diffFn pc pac
               reflogMsg := spillReflog pn flags.annotate } ∧
      (spill st flags diffFn dc).state =
        { st with
          repo := st.repo ++
            [spillNewCommit st.repo pc (spillTree flags diffFn pc pac)
              (spillCommitter flags dc pc.author)]
          stack := { st.stack with
            pcommit := (pn, freshId st.repo) :: st.stack.pcommit }
          index := if flags.reset then spillTree flags diffFn pc pac
                   else st.index } := by
  unfold spill at h ⊢
  split at h
  · simp at h
  · rename_i r pn pc pac hlk
    simp only at h
    split at h
    · simp at h
    · rename_i hprot
      simp only [Except.ok.injEq] at h
      refine ⟨pn, pc, pac, hlk, by simpa using hprot, h.symm, ?_⟩
      rw [if_neg hprot]
      cases hr : flags.reset <;> simp [hr, spillNewCommit]

/-- Any failing spill leaves the registry, the index and the worktree
unchanged (only the object store may have gained the synthesised commit). -/
theorem spill_error_frame {st : GitState} {flags : SpillFlags}
    {diffFn : TreeId → TreeId → List String → TreeId} {dc : Signature}
    {e : StgError}
    (h : (spill st flags diffFn dc).result = Except.error e) :
    (spill st flags diffFn dc).state.stack = st.stack ∧
    (spill st flags diffFn dc).state.index = st.index ∧
    (spill st flags diffFn dc).state.worktree = st.worktree := by
  unfold spill at h ⊢
  split at h
  · exact ⟨rfl, rfl, rfl⟩
  · rename_i r pn pc pac hlk
    simp only at h ⊢
    split at h
    · rename_i hprot
      rw [if_pos hprot]
      exact ⟨rfl, rfl, rfl⟩
    · rename_i hprot
      simp at h

/-- A protected stack makes spill fail. -/
theorem spill_protected_fails {st : GitState} {flags : SpillFlags}
    {diffFn : TreeId → TreeId → List String → TreeId} {dc : Signature}
    (hprot : st.stack.prot = true) :
    ∃ e, (spill st flags diffFn dc).result = Except.error e := by
  unfold spill
  cases hlk : spillLookup st with
  | error e => exact ⟨e, rfl⟩
  | ok r =>
    rcases r with ⟨pn, pc, pac⟩
    simp only
    rw [if_pos hprot]
    exact ⟨StgError.protectedStack, rfl⟩

/-- A protected stack whose precondition checks pass makes spill fail with
the protected-stack error. -/
theorem spill_protected_kind {st : GitState} {flags : SpillFlags}
    {diffFn : TreeId → TreeId → List String → TreeId} {dc : Signature}
    (hprot : st.stack.prot = true) (hpre : spillPrechecksPass st = true) :
    (spill st flags diffFn dc).result = Except.error StgError.protectedStack := by
  unfold spillPrechecksPass at hpre
  unfold spill
  cases hlk : spillLookup st with
  | error e => rw [hlk] at hpre; simp at hpre
  | ok r =>
    rcases r with ⟨pn, pc, pac⟩
    simp only
    rw [if_pos hprot]

/-- Unpacking a successful walk into its chain classification. -/
theorem repairWalk_some_iff {repo : Repo} {s : Stack} {fuel : Nat} {w : RepairWalk} :
    repairWalk repo s fuel = some w ↔
      ∃ ch stop k, repairChain repo s fuel = some (ch, stop, k) ∧
        w = ⟨(foundOn s ch).reverse, (flushAcc s ch k [] []).reverse, stop⟩ := by
  rw [repairWalk_eq]
  cases h : repairChain repo s fuel with
  | none => simp
  | some r =>
    rcases r with ⟨ch, stop, k⟩
    simp only [Option.map_some', Option.some.injEq]
    constructor
    · intro hw
      exact ⟨ch, stop, k, rfl, hw.symm⟩
    · rintro ⟨ch', stop', k', heq, hw⟩
      simp only [Option.some.injEq, Prod.mk.injEq] at heq
      obtain ⟨h1, h2, h3⟩ := heq
      subst h1
      subst h2
      subst h3
      exact hw.symm

theorem forall₂_mem_left {α β : Type} {R : α → β → Prop} :
    ∀ {as : List α} {bs : List β}, List.Forall₂ R as bs →
    ∀ a ∈ as, ∃ b ∈ bs, R a b := by
  intro as
  induction as with
  | nil => intro bs h a ha; cases ha
  | cons x as ih =>
    intro bs h a ha
    cases h with
    | cons hr hrest =>
      rcases List.mem_cons.mp ha with h' | h'
      · subst h'
        exact ⟨_, List.mem_cons_self _ _, hr⟩
      · obtain ⟨b, hb, hrb⟩ := ih hrest a h'
        exact ⟨b, List.mem_cons_of_mem _ hb, hrb⟩

/-! ## Object-id freshness -/

theorem mem_le_foldr_max : ∀ (l : List Nat) (x : Nat), x ∈ l → x ≤ l.foldr max 0 := by
  intro l
  induction l with
  | nil => intro x hx; cases hx
  | cons a l ih =>
    intro x hx
    rcases List.mem_cons.mp hx with h | h
    · subst h
      exact le_max_left _ _
    · exact le_trans (ih x h) (le_max_right _ _)

theorem freshId_not_mem {repo : Repo} {c : Commit} (h : c ∈ repo) :
    c.id ≠ freshId repo := by
  have hmem : c.id ∈ repo.map (fun c => c.id) := List.mem_map_of_mem _ h
  have hle := mem_le_foldr_max _ _ hmem
  show c.id ≠ (repo.map (fun c => c.id)).foldr max 0 + 1
  exact Nat.ne_of_lt (Nat.lt_succ_of_le hle)

/-! ## Claim theorems -/

/-- C9: for every invocation of `repair --reset` in which the branch head
equals the recorded stack head, the command prints the already-matching
message and exits successfully without opening a transaction, so no
reference and no stack state is written (the returned state is the input
state unchanged, and the `true` flag records the printed message). -/
theorem repair_reset_short_circuit (st : GitState)
    (hprot : st.stack.prot = false)
    (hmatch : st.stack.branchHead = st.stack.head) :
    repairReset st = ⟨st, Except.ok true⟩ := by
  unfold repairReset
  rw [hprot]
  simp [hmatch]

theorem repair_reset_short_circuit_witness :
    spState.stack.prot = false ∧
    spState.stack.branchHead = spState.stack.head ∧
    repairReset spState = ⟨spState, Except.ok true⟩ :=
  ⟨by decide, by decide,
    repair_reset_short_circuit spState (by decide) (by decide)⟩

/-- C8 (amended): if the stack is protected, repair in both modes fails
with the protected-stack error and returns the state unchanged, and spill
fails leaving the registry, index and worktree unchanged — with the
protected-stack error whenever its precondition checks pass.  (As stated
the claim is falsified by a protected stack with no applied patches, where
spill fails with the no-applied-patches error instead; see the
counterexample.) -/
theorem protected_rejects_mutations (st : GitState) (limit fuel : Nat)
    (flags : SpillFlags) (diffFn : TreeId → TreeId → List String → TreeId)
    (dc : Signature) (hprot : st.stack.prot = true) :
    repairAuto st limit fuel = ⟨st, Except.error StgError.protectedStack⟩ ∧
    repairReset st = ⟨st, Except.error StgError.protectedStack⟩ ∧
    (∃ e, (spill st flags diffFn dc).result = Except.error e) ∧
    (spill st flags diffFn dc).state.stack = st.stack ∧
    (spill st flags diffFn dc).state.index = st.index ∧
    (spill st flags diffFn dc).state.worktree = st.worktree ∧
    (spillPrechecksPass st = true →
      (spill st flags diffFn dc).result = Except.error StgError.protectedStack) := by
  obtain ⟨e, he⟩ := @spill_protected_fails st flags diffFn dc hprot
  obtain ⟨h1, h2, h3⟩ := spill_error_frame he
  exact ⟨repairAuto_protected hprot, repairReset_protected hprot, ⟨e, he⟩,
    h1, h2, h3, fun hpre => spill_protected_kind hprot hpre⟩

theorem protected_spill_error_kind_cex :
    c8State.stack.prot = true ∧
    (spill c8State ⟨false, false, none, none⟩ diff99 dcUser).result =
      Except.error StgError.noAppliedPatches ∧
    StgError.noAppliedPatches ≠ StgError.protectedStack := by
  refine ⟨rfl, ?_, by decide⟩
  decide

theorem protected_rejects_mutations_witness :
    spStateProt.stack.prot = true ∧
    spillPrechecksPass spStateProt = true ∧
    repairAuto spStateProt 100 10 =
      ⟨spStateProt, Except.error StgError.protectedStack⟩ ∧
    repairReset spStateProt = ⟨spStateProt, Except.error StgError.protectedStack⟩ ∧
    (spill spStateProt ⟨false, false, none, none⟩ diff99 dcUser).result =
      Except.error StgError.protectedStack :=
  ⟨by decide, by decide,
    (protected_rejects_mutations spStateProt 100 10 ⟨false, false, none, none⟩
      diff99 dcUser (by decide)).1,
    (protected_rejects_mutations spStateProt 100 10 ⟨false, false, none, none⟩
      diff99 dcUser (by decide)).2.1,
    (protected_rejects_mutations spStateProt 100 10 ⟨false, false, none, none⟩
      diff99 dcUser (by decide)).2.2.2.2.2.2 (by decide)⟩

/-- C4 (amended): after every successful spill with the reset flag, the live
index equals the computed new tree — which is the tree of the top patch's
parent commit exactly when no pathspecs were given — and the worktree is
untouched.  (As stated the claim is falsified with pathspecs, where the
index receives the path-filtered tree instead of the parent's tree; see the
counterexample.) -/
theorem spill_reset_index_to_new_tree (st : GitState) (flags : SpillFlags)
    (diffFn : TreeId → TreeId → List String → TreeId) (dc : Signature)
    (info : SpillInfo)
    (hr : flags.reset = true)
    (hok : (spill st flags diffFn dc).result = Except.ok info) :
    (spill st flags diffFn dc).state.index = info.treeId ∧
    (spill st flags diffFn dc).state.worktree = st.worktree ∧
    (flags.pathspecs = none →
      ∀ pc pid pac,
        findCommit st.repo (st.stack.patchCommitId info.patchname) = some pc →
        pc.parents.head? = some pid →
        findCommit st.repo pid = some pac →
        info.treeId = pac.tree) := by
  obtain ⟨pn, pc, pac, hlk, hprot, hinfo, hstate⟩ := spill_ok hok
  obtain ⟨hc, hfc, hidx, hht, hlast, hpc, pid, hpid, hpac⟩ := spillLookup_ok hlk
  refine ⟨?_, ?_, ?_⟩
  · rw [hstate, hinfo]
    simp [hr]
  · rw [hstate]
  · intro hps pc' pid' pac' hpc' hpid' hpac'
    have hpn : info.patchname = pn := by rw [hinfo]
    rw [hpn] at hpc'
    rw [hpc] at hpc'
    have hpceq : pc' = pc := by injection hpc' with h; exact h.symm
    subst hpceq
    rw [hpid] at hpid'
    have hpideq : pid' = pid := by injection hpid' with h; exact h.symm
    subst hpideq
    rw [hpac] at hpac'
    have hpaceq : pac' = pac := by injection hpac' with h; exact h.symm
    subst hpaceq
    rw [hinfo]
    simp [spillTree, hps]

theorem spill_reset_pathspec_cex :
    (spill spState ⟨true, false, some ["f"], none⟩ diff99 dcUser).result =
      Except.ok ⟨"p", 3, 99, "spill p"⟩ ∧
    findCommit spState.repo (spState.stack.patchCommitId "p") = some spTop ∧
    spTop.parents = [1] ∧
    findCommit spState.repo 1 = some spBase ∧
    spBase.tree = 5 ∧
    (spill spState ⟨true, false, some ["f"], none⟩ diff99 dcUser).state.index = 99 ∧
    (99 : TreeId) ≠ 5 := by
  refine ⟨?_, by decide, by decide, by decide, by decide, ?_, by decide⟩
  · decide
  · decide

theorem spill_reset_index_to_new_tree_witness :
    (spill spState ⟨true, false, none, none⟩ diff99 dcUser).result =
      Except.ok ⟨"p", 3, 5, "spill p"⟩ ∧
    (spill spState ⟨true, false, none, none⟩ diff99 dcUser).state.index = 5 ∧
    (spill spState ⟨true, false, none, none⟩ diff99 dcUser).state.worktree =
      spState.worktree :=
  ⟨by decide,
    by
      have h := (spill_reset_index_to_new_tree spState ⟨true, false, none, none⟩
        diff99 dcUser ⟨"p", 3, 5, "spill p"⟩ (by decide) (by decide)).1
      simpa using h,
    (spill_reset_index_to_new_tree spState ⟨true, false, none, none⟩ diff99
      dcUser ⟨"p", 3, 5, "spill p"⟩ (by decide) (by decide)).2.1⟩

/-- C6: for every successful spill, the synthesised replacement commit has
the same parents as the old top commit, the same author, the same message,
tree equal to the computed new tree (the parent's tree when no pathspecs
are given), and committer equal to the current user — with the committer
timestamp forced to the author timestamp exactly when
committer-date-is-author-date is set — and only the one topmost patch's
commit binding changes (every other binding and all three lists are
unchanged, and the top patch's binding does change to the fresh id). -/
theorem spill_replacement_commit_spec (st : GitState) (flags : SpillFlags)
    (diffFn : TreeId → TreeId → List String → TreeId) (dc : Signature)
    (info : SpillInfo) (pc : Commit) (pid : CommitId) (pac : Commit)
    (hok : (spill st flags diffFn dc).result = Except.ok info)
    (hpc : findCommit st.repo (st.stack.patchCommitId info.patchname) = some pc)
    (hpid : pc.parents.head? = some pid)
    (hpac : findCommit st.repo pid = some pac) :
    ∃ nc : Commit,
      (spill st flags diffFn dc).state.repo = st.repo ++ [nc] ∧
      nc.id = info.newCommitId ∧
      nc.parents = pc.parents ∧
      nc.author = pc.author ∧
      nc.message = pc.message ∧
      nc.tree = info.treeId ∧
      nc.committer = (if flags.cdiad = true
                      then { dc with time := pc.author.time }
                      else dc) ∧
      (flags.pathspecs = none → info.treeId = pac.tree) ∧
      st.stack.applied.getLast? = some info.patchname ∧
      (spill st flags diffFn dc).state.stack.applied = st.stack.applied ∧
      (spill st flags diffFn dc).state.stack.unapplied = st.stack.unapplied ∧
      (spill st flags diffFn dc).state.stack.hidden = st.stack.hidden ∧
      (spill st flags diffFn dc).state.stack.patchCommitId info.patchname =
        info.newCommitId ∧
      (∀ q, q ≠ info.patchname →
        (spill st flags diffFn dc).state.stack.patchCommitId q =
          st.stack.patchCommitId q) ∧
      info.newCommitId ≠ st.stack.patchCommitId info.patchname := by
  obtain ⟨pn, pc0, pac0, hlk, hprot, hinfo, hstate⟩ := spill_ok hok
  obtain ⟨hc, hfc, hidx, hht, hlast, hpc0, pid0, hpid0, hpac0⟩ := spillLookup_ok hlk
  have hpn : info.patchname = pn := by rw [hinfo]
  rw [hpn] at hpc
  rw [hpc0] at hpc
  have hpceq : pc0 = pc := Option.some.inj hpc
  subst hpceq
  rw [hpid0] at hpid
  have hpideq : pid = pid0 := (Option.some.inj hpid).symm
  subst hpideq
  rw [hpac0] at hpac
  have hpaceq : pac0 = pac := Option.some.inj hpac
  subst hpaceq
  have hnid : info.newCommitId = freshId st.repo := by rw [hinfo]
  have htree : info.treeId = spillTree flags diffFn pc0 pac0 := by rw [hinfo]
  have hpcu : ((spill st flags diffFn dc).state.stack).pcommit =
      (pn, freshId st.repo) :: st.stack.pcommit := by
    rw [hstate]
  refine ⟨spillNewCommit st.repo pc0 (spillTree flags diffFn pc0 pac0)
    (spillCommitter flags dc pc0.author), ?_, ?_, rfl, rfl, rfl, ?_, ?_, ?_,
    ?_, ?_, ?_, ?_, ?_, ?_, ?_⟩
  · rw [hstate]
  · rw [hnid]
    rfl
  · rw [htree]
    rfl
  · show spillCommitter flags dc pc0.author = _
    unfold spillCommitter
    rcases hcd : flags.cdiad with _ | _ <;> simp [hcd]
  · intro hps
    rw [htree]
    simp [spillTree, hps]
  · rw [hpn]
    exact hlast
  · rw [hstate]
  · rw [hstate]
  · rw [hstate]
  · rw [hpn, hnid]
    exact patchCommitId_update_self hpcu
  · intro q hq
    rw [hpn] at hq
    exact patchCommitId_update_other hpcu hq
  · rw [hpn, hnid]
    have hmem : pc0 ∈ st.repo := List.mem_of_find?_eq_some hpc0
    have hid : pc0.id = st.stack.patchCommitId pn := findCommit_id hpc0
    rw [← hid]
    exact fun hh => freshId_not_mem hmem hh.symm

theorem spill_replacement_commit_spec_witness :
    (spill spState ⟨false, true, none, none⟩ diff99 dcUser).result =
      Except.ok ⟨"p", 3, 5, "spill p"⟩ ∧
    findCommit spState.repo (spState.stack.patchCommitId "p") = some spTop ∧
    spTop.parents.head? = some 1 ∧
    findCommit spState.repo 1 = some spBase ∧
    (∃ nc : Commit,
      (spill spState ⟨false, true, none, none⟩ diff99 dcUser).state.repo =
        spState.repo ++ [nc] ∧
      nc.id = (3 : CommitId) ∧
      nc.parents = spTop.parents ∧
      nc.author = spTop.author ∧
      nc.message = spTop.message ∧
      nc.tree = (5 : TreeId) ∧
      nc.committer = { dcUser with time := spTop.author.time } ∧
      (spill spState ⟨false, true, none, none⟩ diff99 dcUser).state.stack.patchCommitId "p" = 3) := by
  refine ⟨by decide, by decide, by decide, by decide, ?_⟩
  have h := spill_replacement_commit_spec spState ⟨false, true, none, none⟩
    diff99 dcUser ⟨"p", 3, 5, "spill p"⟩ spTop 1 spBase (by decide) (by decide)
    (by decide) (by decide)
  obtain ⟨nc, h1, h2, h3, h4, h5, h6, h7, _, _, _, _, _, h13, _, _⟩ := h
  refine ⟨nc, h1, h2, h3, h4, h5, h6, ?_, h13⟩
  simpa using h7

/-- C3 (amended): for every successful auto repair, the reachability scan
over the merge ancestry is performed exactly when the walk's stop commit id
differs from the recorded base (when the walk advanced, that means it
stopped at a commit without exactly one parent — a merge or a root, not
only a merge as the claim states; see the counterexample); the warning is
recorded exactly when the scan ran and counted at least one patch commit;
and the scan does not move patches: the new unapplied and hidden lists are
the plain membership recompositions regardless of the scan. -/
theorem merge_scan_condition (st : GitState) (limit fuel : Nat)
    (info : RepairInfo) (w : RepairWalk)
    (hok : (repairAuto st limit fuel).result = Except.ok info)
    (hw : repairWalk st.repo st.stack fuel = some w) :
    (info.mergeScan.isSome = true ↔ w.stop.id ≠ st.stack.base) ∧
    (info.warned = true ↔ ∃ n, info.mergeScan = some (w.stop.id, n) ∧ 0 < n) ∧
    (repairAuto st limit fuel).state.stack.unapplied =
      st.stack.applied.filter (fun pn => !(w.applied.contains pn)) ++
      st.stack.unapplied.filter (fun pn => !(w.applied.contains pn)) ∧
    (repairAuto st limit fuel).state.stack.hidden =
      st.stack.hidden.filter (fun pn => !(w.applied.contains pn)) := by
  obtain ⟨w', scan, s2, hprot, hw', hscan, hpatch, hms, hwarn, hstate⟩ :=
    repairAuto_ok hok
  rw [hw] at hw'
  have hweq : w' = w := (Option.some.inj hw').symm
  rw [hweq] at hscan hpatch
  unfold runScan at hscan
  have hsc : (w.stop.id = st.stack.base ∧ scan = none) ∨
      (w.stop.id ≠ st.stack.base ∧ ∃ n, scan = some (w.stop.id, n)) := by
    by_cases hb : w.stop.id = st.stack.base
    · rw [if_pos hb] at hscan
      exact Or.inl ⟨hb, (Option.some.inj hscan).symm⟩
    · rw [if_neg hb] at hscan
      refine Or.inr ⟨hb, ?_⟩
      split at hscan
      · simp at hscan
      · rename_i n hn
        exact ⟨n, (Option.some.inj hscan).symm⟩
  obtain ⟨ns, hcr, happ, hun, hhid, _, _, _, _, _, _, _⟩ :=
    patchifyLoop_spec limit _ _ _ _ _ hpatch
  refine ⟨?_, ?_, ?_, ?_⟩
  · rcases hsc with ⟨hb, hscn⟩ | ⟨hb, n, hscn⟩
    · rw [hms, hscn]
      simp [hb]
    · rw [hms, hscn]
      simp [hb]
  · rcases hsc with ⟨hb, hscn⟩ | ⟨hb, n, hscn⟩
    · rw [hwarn, hms, hscn]
      simp [scanWarn]
    · rw [hwarn, hms, hscn]
      simp [scanWarn]
  · rw [hstate]
    show s2.unapplied = _
    rw [hun]
    rfl
  · rw [hstate]
    show s2.hidden = _
    rw [hhid]
    rfl

theorem merge_scan_root_cex :
    (repairAuto c3State 100 10).result =
      Except.ok ⟨[], some (1, 1), true⟩ ∧
    repairWalk c3State.repo c3State.stack 10 = some ⟨[], [], c3Root⟩ ∧
    c3Root.parents.length = 0 ∧
    ¬(2 ≤ c3Root.parents.length) := by
  exact ⟨by decide, by decide, by decide, by decide⟩

theorem merge_scan_condition_witness :
    (repairAuto wState 100 10).result = Except.ok ⟨["feat-x"], none, false⟩ ∧
    repairWalk wState.repo wState.stack 10 = some ⟨["p"], [wX], wBase⟩ ∧
    ¬((⟨["feat-x"], none, false⟩ : RepairInfo).mergeScan.isSome = true) ∧
    (repairAuto wState 100 10).state.stack.unapplied =
      wState.stack.applied.filter (fun pn => !((["p"] : List PatchName).contains pn)) ++
      wState.stack.unapplied.filter (fun pn => !((["p"] : List PatchName).contains pn)) := by
  have h := merge_scan_condition wState 100 10 ⟨["feat-x"], none, false⟩
    ⟨["p"], [wX], wBase⟩ (by decide) (by decide)
  refine ⟨by decide, by decide, ?_, ?_⟩
  · intro hh
    exact (h.1.mp hh) (by decide)
  · exact h.2.2.1

/-- C5 (amended): for every successful auto repair in which the branch head
differs from the recorded base, no walked commit whose id equals the base
is patchified: every commit in the patchify buffer, and the commit bound to
every newly created patch, has an id different from the base.  (The
restriction to branch head ≠ base is forced: when the branch head itself is
the base commit, the base enters the walk before any base check and can be
promoted — see the counterexample.) -/
theorem base_never_patchified (st : GitState) (limit fuel : Nat)
    (info : RepairInfo) (w : RepairWalk)
    (hok : (repairAuto st limit fuel).result = Except.ok info)
    (hw : repairWalk st.repo st.stack fuel = some w)
    (hbb : st.stack.branchHead ≠ st.stack.base) :
    (∀ c ∈ w.patchify, c.id ≠ st.stack.base) ∧
    (∀ pn ∈ info.created,
      (repairAuto st limit fuel).state.stack.patchCommitId pn ≠ st.stack.base) := by
  obtain ⟨ch, stop, k, hc, hww⟩ := repairWalk_some_iff.mp hw
  have hpart1 : ∀ c ∈ w.patchify, c.id ≠ st.stack.base := by
    intro c hcp
    rw [hww] at hcp
    simp only [List.mem_reverse] at hcp
    have hcch : c ∈ ch := by
      have hmem : c ∈ (trailFlush st.stack ch [] []).1 ∨
          c ∈ (trailFlush st.stack ch [] []).2 := by
        unfold flushAcc at hcp
        cases k with
        | atBase =>
          rcases List.mem_append.mp hcp with h | h
          · exact Or.inl h
          · exact Or.inr h
        | nonlinear => exact Or.inl hcp
      rcases trailFlush_mem st.stack ch [] [] c hmem with h | h | h
      · cases h
      · cases h
      · exact h
    unfold repairChain at hc
    revert hc
    cases hfc : findCommit st.repo st.stack.branchHead with
    | none => intro hc; simp at hc
    | some hcom =>
      intro hc
      simp only at hc
      rcases chain_mem_cases hc c hcch with h | h
      · rw [h, findCommit_id hfc]
        exact hbb
      · exact h
  refine ⟨hpart1, ?_⟩
  obtain ⟨w', scan, s2, hprot, hw', hscan, hpatch, _, _, hstate⟩ :=
    repairAuto_ok hok
  rw [hw] at hw'
  have hweq : w' = w := (Option.some.inj hw').symm
  rw [hweq] at hpatch
  obtain ⟨ns, hcr, _, _, _, _, _, _, _, _, hfa, _⟩ :=
    patchifyLoop_spec limit _ _ _ _ _ hpatch
  intro pn hpn
  have hpn' : pn ∈ ns := by
    have : info.created = ns := by simpa using hcr
    rw [this] at hpn
    exact hpn
  obtain ⟨c, hcmem, hbind⟩ := forall₂_mem_left hfa pn hpn'
  rw [hstate]
  show s2.patchCommitId pn ≠ st.stack.base
  rw [hbind]
  exact hpart1 c hcmem

theorem base_patchified_cex :
    c5State.stack.branchHead = c5State.stack.base ∧
    (repairAuto c5State 100 10).result =
      Except.ok ⟨["zz"], some (3, 0), false⟩ ∧
    (repairAuto c5State 100 10).state.stack.patchCommitId "zz" =
      c5State.stack.base := by
  exact ⟨by decide, by decide, by decide⟩

theorem base_never_patchified_witness :
    (repairAuto wState 100 10).result =
      Except.ok ⟨["feat-x"], none, false⟩ ∧
    repairWalk wState.repo wState.stack 10 = some ⟨["p"], [wX], wBase⟩ ∧
    wState.stack.branchHead ≠ wState.stack.base ∧
    wX.id ≠ wState.stack.base ∧
    (repairAuto wState 100 10).state.stack.patchCommitId "feat-x" ≠
      wState.stack.base :=
  ⟨by decide, by decide, by decide,
    (base_never_patchified wState 100 10 ⟨["feat-x"], none, false⟩
      ⟨["p"], [wX], wBase⟩ (by decide) (by decide) (by decide)).1 wX
      (by decide),
    (base_never_patchified wState 100 10 ⟨["feat-x"], none, false⟩
      ⟨["p"], [wX], wBase⟩ (by decide) (by decide) (by decide)).2 "feat-x"
      (by decide)⟩

theorem notContains_iff {l : List PatchName} {x : PatchName} :
    (!(l.contains x)) = true ↔ x ∉ l := by
  simp

theorem mem_recompose {s : Stack} {ap : List PatchName} {x : PatchName} :
    x ∈ (recomposeLists s ap).allPatches ↔
      x ∈ ap ∨ (x ∈ s.allPatches ∧ x ∉ ap) := by
  unfold recomposeLists Stack.allPatches
  simp only [List.mem_append, List.mem_filter, notContains_iff]
  tauto

theorem walk_applied_mem {repo : Repo} {s : Stack} {fuel : Nat} {w : RepairWalk}
    (hw : repairWalk repo s fuel = some w) :
    ∀ pn ∈ w.applied, pn ∈ s.allPatches := by
  obtain ⟨ch, stop, k, hc, hww⟩ := repairWalk_some_iff.mp hw
  intro pn hpn
  rw [hww] at hpn
  simp only [List.mem_reverse] at hpn
  obtain ⟨c, hcch, hfp⟩ := mem_foundOn.mp hpn
  exact findPatch_mem hfp

/-- C2: for every successful auto repair, the new applied list is the
re-identified patches followed by the newly created names, the new
unapplied list is (old applied minus found) followed by (old unapplied
minus found) preserving the original order within each, the new hidden list
is old hidden minus found, the union of the three new lists equals the
union of the three old lists plus the newly created names, and the three
new lists are pairwise disjoint. -/
theorem repair_list_recomposition (st : GitState) (limit fuel : Nat)
    (info : RepairInfo) (w : RepairWalk)
    (hwf : st.stack.WF)
    (hok : (repairAuto st limit fuel).result = Except.ok info)
    (hw : repairWalk st.repo st.stack fuel = some w) :
    (repairAuto st limit fuel).state.stack.applied = w.applied ++ info.created ∧
    (repairAuto st limit fuel).state.stack.unapplied =
      st.stack.applied.filter (fun pn => !(w.applied.contains pn)) ++
      st.stack.unapplied.filter (fun pn => !(w.applied.contains pn)) ∧
    (repairAuto st limit fuel).state.stack.hidden =
      st.stack.hidden.filter (fun pn => !(w.applied.contains pn)) ∧
    (∀ pn, pn ∈ (repairAuto st limit fuel).state.stack.allPatches ↔
      (pn ∈ st.stack.allPatches ∨ pn ∈ info.created)) ∧
    List.Disjoint (repairAuto st limit fuel).state.stack.applied
      (repairAuto st limit fuel).state.stack.unapplied ∧
    List.Disjoint (repairAuto st limit fuel).state.stack.applied
      (repairAuto st limit fuel).state.stack.hidden ∧
    List.Disjoint (repairAuto st limit fuel).state.stack.unapplied
      (repairAuto st limit fuel).state.stack.hidden := by
  obtain ⟨w', scan, s2, hprot, hw', hscan, hpatch, _, _, hstate⟩ :=
    repairAuto_ok hok
  rw [hw] at hw'
  have hweq : w' = w := (Option.some.inj hw').symm
  rw [hweq] at hpatch
  obtain ⟨ns, hcr, happ, hun, hhid, _, _, _, hnd, hfr, hfa, _⟩ :=
    patchifyLoop_spec limit _ _ _ _ _ hpatch
  have hcr' : info.created = ns := by simpa using hcr
  have hsub := walk_applied_mem hw
  have hstk : (repairAuto st limit fuel).state.stack = s2 := by rw [hstate]
  rw [hstk]
  -- membership in the new stack
  have hmem2 : ∀ pn, pn ∈ s2.allPatches ↔
      (pn ∈ ns ∨ pn ∈ (recomposeLists st.stack w.applied).allPatches) := by
    intro pn
    unfold Stack.allPatches at *
    rw [happ, hun, hhid]
    show pn ∈ ((recomposeLists st.stack w.applied).applied ++ ns) ++
        (recomposeLists st.stack w.applied).unapplied ++
        (recomposeLists st.stack w.applied).hidden ↔ _
    simp only [List.mem_append]
    tauto
  -- unapplied and hidden memberships
  have hunm : ∀ pn, pn ∈ s2.unapplied →
      (pn ∈ st.stack.allPatches ∧ pn ∉ w.applied) := by
    intro pn hpn
    rw [hun] at hpn
    revert hpn
    unfold recomposeLists Stack.allPatches
    simp only [List.mem_append, List.mem_filter, notContains_iff]
    tauto
  have hhidm : ∀ pn, pn ∈ s2.hidden →
      (pn ∈ st.stack.hidden ∧ pn ∉ w.applied) := by
    intro pn hpn
    rw [hhid] at hpn
    revert hpn
    unfold recomposeLists
    simp only [List.mem_filter, notContains_iff]
    exact fun h => h
  have hrecm : ∀ pn, pn ∈ s2.unapplied ∨ pn ∈ s2.hidden →
      pn ∈ (recomposeLists st.stack w.applied).allPatches := by
    intro pn hpn
    unfold Stack.allPatches
    rcases hpn with h | h
    · rw [hun] at h
      simp [h]
    · rw [hhid] at h
      simp [h]
  refine ⟨?_, ?_, ?_, ?_, ?_, ?_, ?_⟩
  · rw [happ, hcr']
    rfl
  · rw [hun]
    rfl
  · rw [hhid]
    rfl
  · intro pn
    rw [hmem2 pn, mem_recompose, hcr']
    constructor
    · rintro (h | h | ⟨h1, _⟩)
      · exact Or.inr h
      · exact Or.inl (hsub pn h)
      · exact Or.inl h1
    · rintro (h | h)
      · by_cases hap : pn ∈ w.applied
        · exact Or.inr (Or.inl hap)
        · exact Or.inr (Or.inr ⟨h, hap⟩)
      · exact Or.inl h
  · intro a ha hb
    rw [happ] at ha
    have ha' : a ∈ w.applied ∨ a ∈ ns := by
      have hx : a ∈ w.applied ++ ns := ha
      simpa using hx
    rcases ha' with h | h
    · exact (hunm a hb).2 h
    · exact hfr a h (hrecm a (Or.inl hb))
  · intro a ha hb
    rw [happ] at ha
    have ha' : a ∈ w.applied ∨ a ∈ ns := by
      have hx : a ∈ w.applied ++ ns := ha
      simpa using hx
    rcases ha' with h | h
    · exact (hhidm a hb).2 h
    · exact hfr a h (hrecm a (Or.inr hb))
  · intro a ha hb
    have h1 := hunm a ha
    have h2 := hhidm a hb
    -- old applied ++ unapplied is disjoint from old hidden
    have hdisj : List.Disjoint (st.stack.applied ++ st.stack.unapplied)
        st.stack.hidden := List.disjoint_of_nodup_append hwf
    have haorun : a ∈ st.stack.applied ++ st.stack.unapplied := by
      rw [hun] at ha
      revert ha
      unfold recomposeLists
      simp only [List.mem_append, List.mem_filter]
      intro ha
      rcases ha with ⟨h', _⟩ | ⟨h', _⟩
      · exact Or.inl h'
      · exact Or.inr h'
    exact hdisj haorun h2.1

theorem repair_list_recomposition_witness :
    wState.stack.WF ∧
    (repairAuto wState 100 10).result = Except.ok ⟨["feat-x"], none, false⟩ ∧
    repairWalk wState.repo wState.stack 10 = some ⟨["p"], [wX], wBase⟩ ∧
    (repairAuto wState 100 10).state.stack.applied =
      (⟨["p"], [wX], wBase⟩ : RepairWalk).applied ++
        (⟨["feat-x"], none, false⟩ : RepairInfo).created ∧
    (repairAuto wState 100 10).state.stack.hidden =
      wState.stack.hidden.filter
        (fun pn => !((⟨["p"], [wX], wBase⟩ : RepairWalk).applied.contains pn)) :=
  ⟨by decide, by decide, by decide,
    (repair_list_recomposition wState 100 10 ⟨["feat-x"], none, false⟩
      ⟨["p"], [wX], wBase⟩ (by decide) (by decide) (by decide)).1,
    (repair_list_recomposition wState 100 10 ⟨["feat-x"], none, false⟩
      ⟨["p"], [wX], wBase⟩ (by decide) (by decide) (by decide)).2.2.1⟩

/-- C10: when two distinct patch names are bound to the same commit id and
that commit lies on the walked first-parent chain, the walk re-identifies
exactly the first such name in all-patches iteration order (applied, then
unapplied, then hidden) as applied, while every other name bound to that
commit ends up in the new unapplied or hidden list. -/
theorem duplicate_binding_first_wins (st : GitState) (limit fuel : Nat)
    (info : RepairInfo) (w : RepairWalk) (ch : List Commit) (stop : Commit)
    (k : StopKind) (pn₁ pn₂ : PatchName) (d : CommitId)
    (hok : (repairAuto st limit fuel).result = Except.ok info)
    (hw : repairWalk st.repo st.stack fuel = some w)
    (hc : repairChain st.repo st.stack fuel = some (ch, stop, k))
    (hne : pn₁ ≠ pn₂)
    (hm2 : pn₂ ∈ st.stack.allPatches)
    (hb2 : st.stack.patchCommitId pn₂ = d)
    (hfirst : st.stack.findPatch d = some pn₁)
    (hd : ∃ c ∈ ch, c.id = d) :
    pn₁ ∈ w.applied ∧
    pn₂ ∉ w.applied ∧
    pn₁ ∈ (repairAuto st limit fuel).state.stack.applied ∧
    pn₂ ∉ (repairAuto st limit fuel).state.stack.applied ∧
    (pn₂ ∈ (repairAuto st limit fuel).state.stack.unapplied ∨
      pn₂ ∈ (repairAuto st limit fuel).state.stack.hidden) := by
  obtain ⟨ch', stop', k', hc', hww⟩ := repairWalk_some_iff.mp hw
  rw [hc] at hc'
  simp only [Option.some.injEq, Prod.mk.injEq] at hc'
  obtain ⟨h1, _, _⟩ := hc'
  subst h1
  have hap : w.applied = (foundOn st.stack ch).reverse := by rw [hww]
  have hp1 : pn₁ ∈ w.applied := by
    rw [hap, List.mem_reverse]
    obtain ⟨c, hcch, hcid⟩ := hd
    refine mem_foundOn.mpr ⟨c, hcch, ?_⟩
    rw [hcid]
    exact hfirst
  have hp2 : pn₂ ∉ w.applied := by
    rw [hap, List.mem_reverse]
    intro hmem
    obtain ⟨c', hc'ch, hfp'⟩ := mem_foundOn.mp hmem
    have hb' := findPatch_bound hfp'
    rw [hb2] at hb'
    rw [← hb'] at hfp'
    rw [hfirst] at hfp'
    exact hne (Option.some.inj hfp')
  obtain ⟨w', scan, s2, hprot, hw', hscan, hpatch, _, _, hstate⟩ :=
    repairAuto_ok hok
  rw [hw] at hw'
  have hweq : w' = w := (Option.some.inj hw').symm
  rw [hweq] at hpatch
  obtain ⟨ns, hcr, happ, hun, hhid, _, _, _, _, hfr, _, _⟩ :=
    patchifyLoop_spec limit _ _ _ _ _ hpatch
  have hstk : (repairAuto st limit fuel).state.stack = s2 := by rw [hstate]
  rw [hstk]
  have hp2ns : pn₂ ∉ ns := by
    intro hmem
    exact hfr pn₂ hmem (mem_recompose.mpr (Or.inr ⟨hm2, hp2⟩))
  refine ⟨hp1, hp2, ?_, ?_, ?_⟩
  · rw [happ]
    have : pn₁ ∈ w.applied ++ ns := List.mem_append.mpr (Or.inl hp1)
    exact this
  · rw [happ]
    intro hmem
    have hmem' : pn₂ ∈ w.applied ++ ns := hmem
    rcases List.mem_append.mp hmem' with h | h
    · exact hp2 h
    · exact hp2ns h
  · have hm2' : pn₂ ∈ st.stack.applied ∨ pn₂ ∈ st.stack.unapplied ∨
        pn₂ ∈ st.stack.hidden := by
      have := hm2
      unfold Stack.allPatches at this
      simpa using this
    rcases hm2' with h | h | h
    · refine Or.inl ?_
      rw [hun]
      show pn₂ ∈ st.stack.applied.filter (fun pn => !(w.applied.contains pn)) ++
        st.stack.unapplied.filter (fun pn => !(w.applied.contains pn))
      exact List.mem_append.mpr (Or.inl (List.mem_filter.mpr
        ⟨h, notContains_iff.mpr hp2⟩))
    · refine Or.inl ?_
      rw [hun]
      show pn₂ ∈ st.stack.applied.filter (fun pn => !(w.applied.contains pn)) ++
        st.stack.unapplied.filter (fun pn => !(w.applied.contains pn))
      exact List.mem_append.mpr (Or.inr (List.mem_filter.mpr
        ⟨h, notContains_iff.mpr hp2⟩))
    · refine Or.inr ?_
      rw [hhid]
      show pn₂ ∈ st.stack.hidden.filter (fun pn => !(w.applied.contains pn))
      exact List.mem_filter.mpr ⟨h, notContains_iff.mpr hp2⟩

theorem duplicate_binding_first_wins_witness :
    dupStack.patchCommitId "a" = 2 ∧
    dupStack.patchCommitId "b" = 2 ∧
    dupStack.findPatch 2 = some "a" ∧
    (repairAuto dupState 100 10).result = Except.ok ⟨[], none, false⟩ ∧
    repairWalk dupState.repo dupState.stack 10 = some ⟨["a"], [], wBase⟩ ∧
    repairChain dupState.repo dupState.stack 10 =
      some ([wP], wBase, StopKind.atBase) ∧
    "a" ∈ (⟨["a"], [], wBase⟩ : RepairWalk).applied ∧
    "b" ∉ (⟨["a"], [], wBase⟩ : RepairWalk).applied ∧
    "a" ∈ (repairAuto dupState 100 10).state.stack.applied ∧
    "b" ∉ (repairAuto dupState 100 10).state.stack.applied ∧
    ("b" ∈ (repairAuto dupState 100 10).state.stack.unapplied ∨
      "b" ∈ (repairAuto dupState 100 10).state.stack.hidden) := by
  have h := duplicate_binding_first_wins dupState 100 10 ⟨[], none, false⟩
    ⟨["a"], [], wBase⟩ [wP] wBase StopKind.atBase "a" "b" 2
    (by decide) (by decide) (by decide) (by decide) (by decide) (by decide)
    (by decide) ⟨wP, by decide, by decide⟩
  exact ⟨by decide, by decide, by decide, by decide, by decide, by decide,
    h.1, h.2.1, h.2.2.1, h.2.2.2.1, h.2.2.2.2⟩

/-! ## Machinery for the idempotence analysis -/

/-- The chain depends on the stack only through its recorded base. -/
theorem chainAux_congr {repo : Repo} {s s' : Stack} (hb : s.base = s'.base) :
    ∀ (fuel : Nat) (c : Commit), chainAux repo s fuel c = chainAux repo s' fuel c := by
  intro fuel
  induction fuel with
  | zero => intro c; simp [chainAux]
  | succ fuel ih =>
    intro c
    rw [chainAux, chainAux]
    rcases hp : c.parents with _ | ⟨pid, rest⟩
    · simp
    · rcases rest with _ | ⟨q, rest⟩
      · cases hfc : findCommit repo pid with
        | none => simp [hfc]
        | some parent =>
          simp only [hfc]
          rw [← hb]
          by_cases hbp : s.base = parent.id
          · rw [if_pos hbp, if_pos hbp]
          · rw [if_neg hbp, if_neg hbp, ih]
      · simp

theorem repairChain_congr {repo : Repo} {s s' : Stack} (hb : s.base = s'.base)
    (hh : s.branchHead = s'.branchHead) (fuel : Nat) :
    repairChain repo s fuel = repairChain repo s' fuel := by
  unfold repairChain
  rw [hh]
  cases findCommit repo s'.branchHead with
  | none => rfl
  | some h => exact chainAux_congr hb fuel h

theorem forall₂_mem_right {α β : Type} {R : α → β → Prop} :
    ∀ {as : List α} {bs : List β}, List.Forall₂ R as bs →
    ∀ b ∈ bs, ∃ a ∈ as, R a b := by
  intro as
  induction as with
  | nil =>
    intro bs h b hb
    cases h
    cases hb
  | cons x as ih =>
    intro bs h b hb
    cases h with
    | cons hr hrest =>
      rcases List.mem_cons.mp hb with h' | h'
      · subst h'
        exact ⟨x, List.mem_cons_self _ _, hr⟩
      · obtain ⟨a, ha, hra⟩ := ih hrest b h'
        exact ⟨a, List.mem_cons_of_mem _ ha, hra⟩

/-- Names bound (in `s2`) to pairwise distinct commit ids have pairwise
distinct bindings. -/
theorem forall₂_bind_inj {s2 : Stack} :
    ∀ {ns : List PatchName} {cs : List Commit},
    List.Forall₂ (fun pn c => s2.patchCommitId pn = c.id) ns cs →
    (∀ c ∈ cs, ∀ c' ∈ cs, c.id = c'.id → c = c') →
    cs.Nodup →
    ∀ q₁ ∈ ns, ∀ q₂ ∈ ns,
      s2.patchCommitId q₁ = s2.patchCommitId q₂ → q₁ = q₂ := by
  intro ns
  induction ns with
  | nil => intro cs h _ _ q₁ hq₁ _ _ _; cases hq₁
  | cons x ns ih =>
    intro cs h hinj hnd q₁ hq₁ q₂ hq₂ heq
    cases h with
    | cons hr hrest =>
      rename_i c cs'
      have hnd' : cs'.Nodup := (List.nodup_cons.mp hnd).2
      have hcns : c ∉ cs' := (List.nodup_cons.mp hnd).1
      have hinj' : ∀ a ∈ cs', ∀ a' ∈ cs', a.id = a'.id → a = a' :=
        fun a ha a' ha' => hinj a (List.mem_cons_of_mem _ ha)
          a' (List.mem_cons_of_mem _ ha')
      have hcross : ∀ q ∈ ns, s2.patchCommitId q ≠ c.id := by
        intro q hq hqc
        obtain ⟨e, he, hre⟩ := forall₂_mem_left hrest q hq
        rw [hre] at hqc
        have : e = c := hinj e (List.mem_cons_of_mem _ he) c
          (List.mem_cons_self _ _) hqc
        subst this
        exact hcns he
      rcases List.mem_cons.mp hq₁ with h₁ | h₁ <;>
        rcases List.mem_cons.mp hq₂ with h₂ | h₂
      · rw [h₁, h₂]
      · subst h₁
        rw [hr] at heq
        exact absurd heq.symm (hcross q₂ h₂)
      · subst h₂
        rw [hr] at heq
        exact absurd heq (hcross q₁ h₁)
      · exact ih hrest hinj' hnd' q₁ h₁ q₂ h₂ heq

/-- The patchified commits form a sublist of the unbound chain commits. -/
theorem flushAcc_sublist (s : Stack) (ch : List Commit) (k : StopKind) :
    (flushAcc s ch k [] []).Sublist
      (ch.filter (fun c => (s.findPatch c.id).isNone)) := by
  have htot := trailFlush_total s ch [] []
  simp only [List.nil_append] at htot
  cases k with
  | atBase =>
    unfold flushAcc
    rw [htot]
  | nonlinear =>
    unfold flushAcc
    have h1 : (trailFlush s ch [] []).1.Sublist
        ((trailFlush s ch [] []).1 ++ (trailFlush s ch [] []).2) :=
      List.sublist_append_left _ _
    rw [htot] at h1
    exact h1

/-- Assembling a successful auto repair from its pieces. -/
theorem repairAuto_build {st : GitState} {limit fuel : Nat} {w : RepairWalk}
    {scan : Option (CommitId × Nat)} {s2c : Stack} {created : List PatchName}
    (hprot : st.stack.prot = false)
    (hw : repairWalk st.repo st.stack fuel = some w)
    (hscan : runScan st.repo st.stack fuel w.stop = some scan)
    (hpatch : patchifyLoop limit (recomposeLists st.stack w.applied) []
      w.patchify = some (s2c, created)) :
    repairAuto st limit fuel =
      ⟨{ st with stack := s2c },
        Except.ok { created := created, mergeScan := scan,
                    warned := scanWarn scan }⟩ := by
  unfold repairAuto
  rw [hprot]
  simp only [Bool.false_eq_true, if_false, hw, hscan, hpatch]

/-- The central stability lemma for idempotence: after a successful repair
whose walk classified the chain `ch` (with pairwise distinct commit ids),
rerunning the walk on the repaired stack `s2` traverses the same chain,
re-identifies a patch exactly on the chain commits that had or received
one (so the found names are exactly the members of `s2.applied`), and
flushes nothing into the patchify buffer. -/
theorem run2_walk_char (repo : Repo) (s s2 : Stack) (ch : List Commit)
    (stop : Commit) (k : StopKind) (ns : List PatchName) (fuel : Nat)
    (hc : repairChain repo s fuel = some (ch, stop, k))
    (hids : (ch.map (fun c => c.id)).Nodup)
    (happ2 : s2.applied = (foundOn s ch).reverse ++ ns)
    (hun2 : s2.unapplied = (recomposeLists s ((foundOn s ch).reverse)).unapplied)
    (hhid2 : s2.hidden = (recomposeLists s ((foundOn s ch).reverse)).hidden)
    (hpres : ∀ pn, pn ∉ ns → s2.patchCommitId pn = s.patchCommitId pn)
    (hfr : ∀ pn ∈ ns,
      pn ∉ (recomposeLists s ((foundOn s ch).reverse)).allPatches)
    (hfa : List.Forall₂ (fun pn c => s2.patchCommitId pn = c.id) ns
      ((flushAcc s ch k [] []).reverse))
    (hbase2 : s2.base = s.base) (hbh2 : s2.branchHead = s.branchHead) :
    repairChain repo s2 fuel = some (ch, stop, k) ∧
    repairWalk repo s2 fuel = some ⟨(foundOn s2 ch).reverse, [], stop⟩ ∧
    (∀ pn, pn ∈ foundOn s2 ch ↔ pn ∈ s2.applied) := by
  have hchnd : ch.Nodup := List.Nodup.of_map _ hids
  have hinj : ∀ c ∈ ch, ∀ c' ∈ ch, c.id = c'.id → c = c' :=
    fun c hc1 c' hc2 => List.inj_on_of_nodup_map hids hc1 hc2
  have hDfil := flushAcc_sublist s ch k
  have hDmem : ∀ d ∈ flushAcc s ch k [] [], d ∈ ch ∧ s.findPatch d.id = none := by
    intro d hd
    have hd' := List.Sublist.subset hDfil hd
    have h := List.mem_filter.mp hd'
    exact ⟨h.1, Option.isNone_iff_eq_none.mp h.2⟩
  have hDnd : (flushAcc s ch k [] []).Nodup :=
    hDfil.nodup ((List.filter_sublist ch).nodup hchnd)
  have hDrevmem : ∀ d ∈ (flushAcc s ch k [] []).reverse,
      d ∈ ch ∧ s.findPatch d.id = none :=
    fun d hd => hDmem d (List.mem_reverse.mp hd)
  have hDrevnd : (flushAcc s ch k [] []).reverse.Nodup :=
    List.nodup_reverse.mpr hDnd
  have hDrevinj : ∀ e ∈ (flushAcc s ch k [] []).reverse,
      ∀ e' ∈ (flushAcc s ch k [] []).reverse, e.id = e'.id → e = e' :=
    fun e he e' he' hee =>
      hinj e (hDrevmem e he).1 e' (hDrevmem e' he').1 hee
  have hFmem : ∀ q ∈ foundOn s ch, q ∈ s.allPatches := by
    intro q hq
    obtain ⟨c, _, hfp⟩ := mem_foundOn.mp hq
    exact findPatch_mem hfp
  have hFold : ∀ q ∈ foundOn s ch, q ∉ ns := by
    intro q hq hqns
    exact hfr q hqns (mem_recompose.mpr (Or.inl (List.mem_reverse.mpr hq)))
  have hnsold : ∀ q ∈ ns, q ∉ s.allPatches := by
    intro q hq hqs
    apply hfr q hq
    by_cases hA : q ∈ (foundOn s ch).reverse
    · exact mem_recompose.mpr (Or.inl hA)
    · exact mem_recompose.mpr (Or.inr ⟨hqs, hA⟩)
  have hun2m : ∀ q ∈ s2.unapplied, q ∈ s.allPatches := by
    intro q hq
    rw [hun2] at hq
    revert hq
    unfold recomposeLists Stack.allPatches
    simp only [List.mem_append, List.mem_filter, notContains_iff]
    tauto
  have hhid2m : ∀ q ∈ s2.hidden, q ∈ s.allPatches := by
    intro q hq
    rw [hhid2] at hq
    revert hq
    unfold recomposeLists Stack.allPatches
    simp only [List.mem_append, List.mem_filter, notContains_iff]
    tauto
  have hallP : ∀ q ∈ s2.allPatches, (q ∈ s.allPatches ∧ q ∉ ns) ∨ q ∈ ns := by
    intro q hq
    by_cases hns : q ∈ ns
    · exact Or.inr hns
    · left
      refine ⟨?_, hns⟩
      have hq3 : q ∈ s2.applied ∨ q ∈ s2.unapplied ∨ q ∈ s2.hidden := by
        unfold Stack.allPatches at hq
        simpa using hq
      rcases hq3 with h | h | h
      · rw [happ2] at h
        rcases List.mem_append.mp h with h' | h'
        · exact hFmem q (List.mem_reverse.mp h')
        · exact absurd h' hns
      · exact hun2m q h
      · exact hhid2m q h
  have hallE : s2.allPatches =
      ((foundOn s ch).reverse ++ ns) ++ (s2.unapplied ++ s2.hidden) := by
    unfold Stack.allPatches
    rw [happ2]
    simp [List.append_assoc]
  have hfind2 : ∀ cid, s2.findPatch cid =
      ((((foundOn s ch).reverse.find? (fun pn => s2.patchCommitId pn == cid)).or
        (ns.find? (fun pn => s2.patchCommitId pn == cid))).or
        ((s2.unapplied ++ s2.hidden).find?
          (fun pn => s2.patchCommitId pn == cid))) := by
    intro cid
    unfold Stack.findPatch
    rw [hallE, List.find?_append, List.find?_append]
  have hB1 : ∀ c ∈ ch, ∀ pn, s.findPatch c.id = some pn →
      s2.findPatch c.id = some pn := by
    intro c hcch pn hfp
    rw [hfind2]
    have hpnF : pn ∈ (foundOn s ch).reverse :=
      List.mem_reverse.mpr (mem_foundOn.mpr ⟨c, hcch, hfp⟩)
    have hpnold : pn ∉ ns := hFold pn (List.mem_reverse.mp hpnF)
    have hbnd : s2.patchCommitId pn = c.id := by
      rw [hpres pn hpnold]
      exact findPatch_bound hfp
    have hfF : (foundOn s ch).reverse.find?
        (fun q => s2.patchCommitId q == c.id) = some pn := by
      apply find?_eq_some_of_unique hpnF (by simp [hbnd])
      intro q hqF hq
      have hqF' := List.mem_reverse.mp hqF
      obtain ⟨c', hc'ch, hfp'⟩ := mem_foundOn.mp hqF'
      have hqold : q ∉ ns := hFold q hqF'
      have hq' : s2.patchCommitId q = c.id := by simpa using hq
      have hqs : s.patchCommitId q = c.id := by
        rw [← hpres q hqold]
        exact hq'
      have hcc : c'.id = c.id := by
        rw [← findPatch_bound hfp']
        exact hqs
      have hce : c' = c := hinj c' hc'ch c hcch hcc
      subst hce
      exact Option.some.inj (hfp'.symm.trans hfp)
    rw [hfF]
    rfl
  have hBd : ∀ d ∈ (flushAcc s ch k [] []).reverse, ∀ pn ∈ ns,
      s2.patchCommitId pn = d.id → s2.findPatch d.id = some pn := by
    intro d hd pn hpn hbnd
    obtain ⟨hdch, hdnone⟩ := hDrevmem d hd
    rw [hfind2]
    have hfF : (foundOn s ch).reverse.find?
        (fun q => s2.patchCommitId q == d.id) = none := by
      rw [List.find?_eq_none]
      intro q hqF hq
      have hqF' := List.mem_reverse.mp hqF
      obtain ⟨c', hc'ch, hfp'⟩ := mem_foundOn.mp hqF'
      have hqold : q ∉ ns := hFold q hqF'
      have hq' : s2.patchCommitId q = d.id := by simpa using hq
      have hqs : s.patchCommitId q = d.id := by
        rw [← hpres q hqold]
        exact hq'
      have hcd : c' = d := by
        apply hinj c' hc'ch d hdch
        rw [← findPatch_bound hfp']
        exact hqs
      subst hcd
      rw [hdnone] at hfp'
      exact Option.noConfusion hfp'
    have hfns : ns.find? (fun q => s2.patchCommitId q == d.id) = some pn := by
      apply find?_eq_some_of_unique hpn (by simp [hbnd])
      intro q hqns hq
      have hq' : s2.patchCommitId q = d.id := by simpa using hq
      exact forall₂_bind_inj hfa hDrevinj hDrevnd q hqns pn hpn
        (by rw [hq', hbnd])
    rw [hfF, hfns]
    rfl
  have hB3 : ∀ c ∈ ch, s.findPatch c.id = none →
      c ∉ flushAcc s ch k [] [] → s2.findPatch c.id = none := by
    intro c hcch hcn hcD
    unfold Stack.findPatch
    rw [List.find?_eq_none]
    intro q hq hpred
    have hq' : s2.patchCommitId q = c.id := by simpa using hpred
    rcases hallP q hq with ⟨hqall, hqns⟩ | hqns
    · have hqs : s.patchCommitId q = c.id := by
        rw [← hpres q hqns]
        exact hq'
      exact (findPatch_eq_none.mp hcn q hqall) hqs
    · obtain ⟨e, he, hre⟩ := forall₂_mem_left hfa q hqns
      have hec : e.id = c.id := by
        rw [← hre]
        exact hq'
      have hece : e = c := hinj e (hDrevmem e he).1 c hcch hec
      subst hece
      exact hcD (List.mem_reverse.mp he)
  have hmemeq : ∀ pn, pn ∈ foundOn s2 ch ↔
      (pn ∈ foundOn s ch ∨ pn ∈ ns) := by
    intro pn
    constructor
    · intro hpn
      obtain ⟨c, hcch, hfp₂⟩ := mem_foundOn.mp hpn
      have hpnall : pn ∈ s2.allPatches := findPatch_mem hfp₂
      have hbnd₂ : s2.patchCommitId pn = c.id := findPatch_bound hfp₂
      rcases hallP pn hpnall with ⟨hall, hns⟩ | hns
      · left
        have hbnds : s.patchCommitId pn = c.id := by
          rw [← hpres pn hns]
          exact hbnd₂
        cases hfps : s.findPatch c.id with
        | none => exact absurd hbnds (findPatch_eq_none.mp hfps pn hall)
        | some q =>
          have hq2 := hB1 c hcch q hfps
          rw [hq2] at hfp₂
          have hqpn : q = pn := Option.some.inj hfp₂
          subst hqpn
          exact mem_foundOn.mpr ⟨c, hcch, hfps⟩
      · exact Or.inr hns
    · intro hpn
      rcases hpn with h | h
      · obtain ⟨c, hcch, hfp⟩ := mem_foundOn.mp h
        exact mem_foundOn.mpr ⟨c, hcch, hB1 c hcch pn hfp⟩
      · obtain ⟨d, hd, hbnd⟩ := forall₂_mem_left hfa pn h
        exact mem_foundOn.mpr ⟨d, (hDrevmem d hd).1, hBd d hd pn h hbnd⟩
  have hbnd2some : ∀ c ∈ ch, (s.findPatch c.id).isSome = true →
      (s2.findPatch c.id).isSome = true := by
    intro c hcch h
    cases hfps : s.findPatch c.id with
    | none => rw [hfps] at h; simp at h
    | some q =>
      rw [hB1 c hcch q hfps]
      rfl
  have hbndD : ∀ c ∈ ch, c ∈ flushAcc s ch k [] [] →
      (s2.findPatch c.id).isSome = true := by
    intro c hcch hcD
    have hcrev : c ∈ (flushAcc s ch k [] []).reverse := List.mem_reverse.mpr hcD
    obtain ⟨pn, hpn, hbnd⟩ := forall₂_mem_right hfa c hcrev
    rw [hBd c hcrev pn hpn hbnd]
    rfl
  have hflush2 : flushAcc s2 ch k [] [] = [] := by
    cases k with
    | atBase =>
      have hDeq : flushAcc s ch StopKind.atBase [] [] =
          ch.filter (fun c => (s.findPatch c.id).isNone) := by
        have htot := trailFlush_total s ch [] []
        unfold flushAcc
        simpa using htot
      have hall2 : ∀ c ∈ ch, (s2.findPatch c.id).isSome := by
        intro c hcch
        cases hfps : s.findPatch c.id with
        | some q => exact hbnd2some c hcch (by rw [hfps]; rfl)
        | none =>
          apply hbndD c hcch
          rw [hDeq]
          exact List.mem_filter.mpr ⟨hcch, by rw [hfps]; rfl⟩
      unfold flushAcc
      rw [trailFlush_allFound s2 ch hall2]
      rfl
    | nonlinear =>
      obtain ⟨ch₁, ch₂, hsp, hub, hcase⟩ := trailFlush_split s ch [] []
      rcases hcase with ⟨h1nil, heq⟩ | heq
      · subst h1nil
        have hsp' : ch = ch₂ := by simpa using hsp
        have hDnil : flushAcc s ch StopKind.nonlinear [] [] = [] := by
          unfold flushAcc
          rw [heq]
        have hub2 : ∀ c ∈ ch, s2.findPatch c.id = none := by
          intro c hcch
          refine hB3 c hcch (hub c (by rw [← hsp']; exact hcch)) ?_
          rw [hDnil]
          simp
        unfold flushAcc
        rw [trailFlush_noneFound s2 ch [] hub2]
      · have hDeq2 : flushAcc s ch StopKind.nonlinear [] [] =
            ch₁.filter (fun c => (s.findPatch c.id).isNone) := by
          unfold flushAcc
          rw [heq]
          simp
        have hch1b : ∀ c ∈ ch₁, (s2.findPatch c.id).isSome := by
          intro c hc1
          have hcch : c ∈ ch := by
            rw [hsp]
            exact List.mem_append.mpr (Or.inl hc1)
          cases hfps : s.findPatch c.id with
          | some q => exact hbnd2some c hcch (by rw [hfps]; rfl)
          | none =>
            apply hbndD c hcch
            rw [hDeq2]
            exact List.mem_filter.mpr ⟨hc1, by rw [hfps]; rfl⟩
        have hch2u : ∀ c ∈ ch₂, s2.findPatch c.id = none := by
          intro c hc2
          have hcch : c ∈ ch := by
            rw [hsp]
            exact List.mem_append.mpr (Or.inr hc2)
          refine hB3 c hcch (hub c hc2) ?_
          rw [hDeq2]
          intro hcD
          have hc1 : c ∈ ch₁ := (List.mem_filter.mp hcD).1
          have hnd12 : (ch₁ ++ ch₂).Nodup := by
            rw [← hsp]
            exact hchnd
          exact List.disjoint_of_nodup_append hnd12 hc1 hc2
        unfold flushAcc
        rw [hsp, trailFlush_append]
        rw [trailFlush_allFound s2 ch₁ hch1b]
        have hne := trailFlush_noneFound s2 ch₂ [] hch2u
        rw [hne]
  refine ⟨?_, ?_, ?_⟩
  · rw [repairChain_congr hbase2 hbh2 fuel]
    exact hc
  · rw [repairWalk_eq]
    rw [repairChain_congr hbase2 hbh2 fuel, hc]
    simp [hflush2]
  · intro pn
    rw [hmemeq pn, happ2]
    simp

/-- C7 (amended): running auto repair a second time immediately after a
successful repair, with no intervening mutation, succeeds, re-identifies
every applied patch (the second applied list has exactly the members of the
first), creates no new patches, and leaves the unapplied list, the hidden
list, the bindings, the base, the branch head, the object store, the index
and the worktree unchanged — assuming the walked chain has pairwise
distinct commit ids (a cycle-free history) and a well-formed original
stack.  (As literally stated — "re-identifies every applied patch in place
… no change to any reference" — the claim fails: when re-identified
patches interleave with newly created ones on the chain, the second run
reorders the applied list and therefore rewrites the stack state; see the
counterexample.) -/
theorem repair_idempotent_membership (st st1 : GitState) (limit fuel : Nat)
    (info : RepairInfo) (w : RepairWalk) (ch : List Commit) (stop : Commit)
    (k : StopKind)
    (hok : (repairAuto st limit fuel).result = Except.ok info)
    (hst1 : (repairAuto st limit fuel).state = st1)
    (hw : repairWalk st.repo st.stack fuel = some w)
    (hc : repairChain st.repo st.stack fuel = some (ch, stop, k))
    (hids : (ch.map (fun c => c.id)).Nodup) :
    ∃ info2 : RepairInfo,
      (repairAuto st1 limit fuel).result = Except.ok info2 ∧
      info2.created = [] ∧
      (∀ pn, pn ∈ (repairAuto st1 limit fuel).state.stack.applied ↔
        pn ∈ st1.stack.applied) ∧
      (repairAuto st1 limit fuel).state.stack.unapplied = st1.stack.unapplied ∧
      (repairAuto st1 limit fuel).state.stack.hidden = st1.stack.hidden ∧
      (repairAuto st1 limit fuel).state.stack.pcommit = st1.stack.pcommit ∧
      (repairAuto st1 limit fuel).state.stack.base = st1.stack.base ∧
      (repairAuto st1 limit fuel).state.stack.branchHead =
        st1.stack.branchHead ∧
      (repairAuto st1 limit fuel).state.repo = st1.repo ∧
      (repairAuto st1 limit fuel).state.index = st1.index ∧
      (repairAuto st1 limit fuel).state.worktree = st1.worktree := by
  obtain ⟨w', scan, s2, hprot, hw', hscan, hpatch, hms, hwarn, hstate⟩ :=
    repairAuto_ok hok
  rw [hw] at hw'
  have hweq : w' = w := (Option.some.inj hw').symm
  rw [hweq] at hscan hpatch
  obtain ⟨ch', stop', k', hc', hww⟩ := repairWalk_some_iff.mp hw
  rw [hc] at hc'
  simp only [Option.some.injEq, Prod.mk.injEq] at hc'
  obtain ⟨hch, hstop, hk⟩ := hc'
  subst hch
  subst hstop
  subst hk
  have hwap : w.applied = (foundOn st.stack ch).reverse := by rw [hww]
  have hwpf : w.patchify = (flushAcc st.stack ch k [] []).reverse := by rw [hww]
  have hwst : w.stop = stop := by rw [hww]
  obtain ⟨ns, hcr, happ, hun, hhid, hb2, hbh2, hpr2, hnd, hfr0, hfa0, hpres⟩ :=
    patchifyLoop_spec limit _ _ _ _ _ hpatch
  have hcr' : info.created = ns := by simpa using hcr
  -- reshape the loop conclusions into the stability lemma's hypotheses
  have happ2 : s2.applied = (foundOn st.stack ch).reverse ++ ns := by
    rw [happ, ← hwap]
    rfl
  have hun2 : s2.unapplied =
      (recomposeLists st.stack ((foundOn st.stack ch).reverse)).unapplied := by
    rw [hun, ← hwap]
  have hhid2 : s2.hidden =
      (recomposeLists st.stack ((foundOn st.stack ch).reverse)).hidden := by
    rw [hhid, ← hwap]
  have hfr : ∀ pn ∈ ns,
      pn ∉ (recomposeLists st.stack ((foundOn st.stack ch).reverse)).allPatches := by
    rw [← hwap]
    exact hfr0
  have hfa : List.Forall₂ (fun pn c => s2.patchCommitId pn = c.id) ns
      ((flushAcc st.stack ch k [] []).reverse) := by
    rw [← hwpf]
    exact hfa0
  have hbase2 : s2.base = st.stack.base := by rw [hb2]; rfl
  have hbh2' : s2.branchHead = st.stack.branchHead := by rw [hbh2]; rfl
  have hprot2 : s2.prot = false := by rw [hpr2]; exact hprot
  obtain ⟨hchain2, hwalk2, hmemeq⟩ := run2_walk_char st.repo st.stack s2 ch
    stop k ns fuel hc hids happ2 hun2 hhid2 hpres hfr hfa hbase2 hbh2'
  -- the second scan succeeds
  have hscan2 : ∃ scan2, runScan st.repo s2 fuel stop = some scan2 := by
    rw [hwst] at hscan
    unfold runScan at hscan ⊢
    by_cases hb : stop.id = st.stack.base
    · rw [if_pos (by rw [hbase2]; exact hb)]
      exact ⟨none, rfl⟩
    · rw [if_neg (by rw [hbase2]; exact hb)]
      rw [if_neg hb] at hscan
      have hsome : (scanAux st.repo st.stack fuel [stop.id] [] 0).isSome = true := by
        cases hx : scanAux st.repo st.stack fuel [stop.id] [] 0 with
        | none => rw [hx] at hscan; simp at hscan
        | some n => rfl
      have hsome2 := scanAux_isSome_congr st.stack s2 fuel [stop.id] [] 0 0 hsome
      cases hx2 : scanAux st.repo s2 fuel [stop.id] [] 0 with
      | none => rw [hx2] at hsome2; simp at hsome2
      | some n2 =>
        exact ⟨some (stop.id, n2), rfl⟩
  obtain ⟨scan2, hscan2'⟩ := hscan2
  -- the second patchify loop is empty
  have hpatch2 : patchifyLoop limit
      (recomposeLists s2 ((foundOn s2 ch).reverse)) [] [] =
      some (recomposeLists s2 ((foundOn s2 ch).reverse), []) := rfl
  have hst1e : st1 = { st with stack := s2 } := by rw [← hst1, hstate]
  subst hst1e
  have hbuild := @repairAuto_build { st with stack := s2 } limit fuel
    ⟨(foundOn s2 ch).reverse, [], stop⟩ scan2
    (recomposeLists s2 ((foundOn s2 ch).reverse)) []
    hprot2 hwalk2 hscan2' hpatch2
  refine ⟨{ created := [], mergeScan := scan2, warned := scanWarn scan2 },
    ?_, rfl, ?_, ?_, ?_, ?_, ?_, ?_, ?_, ?_, ?_⟩
  · rw [hbuild]
  · intro pn
    rw [hbuild]
    show pn ∈ (recomposeLists s2 ((foundOn s2 ch).reverse)).applied ↔
      pn ∈ s2.applied
    show pn ∈ (foundOn s2 ch).reverse ↔ pn ∈ s2.applied
    rw [List.mem_reverse]
    exact hmemeq pn
  · rw [hbuild]
    show (recomposeLists s2 ((foundOn s2 ch).reverse)).unapplied = s2.unapplied
    show s2.applied.filter
        (fun pn => !(((foundOn s2 ch).reverse).contains pn)) ++
      s2.unapplied.filter
        (fun pn => !(((foundOn s2 ch).reverse).contains pn)) = s2.unapplied
    have h1 : s2.applied.filter
        (fun pn => !(((foundOn s2 ch).reverse).contains pn)) = [] := by
      rw [List.filter_eq_nil_iff]
      intro a ha
      rw [notContains_iff]
      intro hno
      exact hno (List.mem_reverse.mpr ((hmemeq a).mpr ha))
    have h2 : s2.unapplied.filter
        (fun pn => !(((foundOn s2 ch).reverse).contains pn)) = s2.unapplied := by
      rw [List.filter_eq_self]
      intro a ha
      rw [notContains_iff]
      intro hmem
      have haf : a ∈ foundOn s2 ch := List.mem_reverse.mp hmem
      have hain : a ∈ s2.applied := (hmemeq a).mp haf
      -- a is in both the unapplied and applied lists of s2: impossible
      have hall : a ∈ st.stack.allPatches ∧ a ∉ (foundOn st.stack ch).reverse := by
        rw [hun2] at ha
        revert ha
        unfold recomposeLists Stack.allPatches
        simp only [List.mem_append, List.mem_filter, notContains_iff]
        tauto
      rw [happ2] at hain
      rcases List.mem_append.mp hain with hx | hx
      · exact hall.2 hx
      · exact hfr a hx (mem_recompose.mpr (Or.inr hall))
    rw [h1, h2]
    rfl
  · rw [hbuild]
    show (recomposeLists s2 ((foundOn s2 ch).reverse)).hidden = s2.hidden
    show s2.hidden.filter
        (fun pn => !(((foundOn s2 ch).reverse).contains pn)) = s2.hidden
    rw [List.filter_eq_self]
    intro a ha
    rw [notContains_iff]
    intro hmem
    have haf : a ∈ foundOn s2 ch := List.mem_reverse.mp hmem
    have hain : a ∈ s2.applied := (hmemeq a).mp haf
    have hall : a ∈ st.stack.hidden ∧ a ∉ (foundOn st.stack ch).reverse := by
      rw [hhid2] at ha
      revert ha
      unfold recomposeLists
      simp only [List.mem_filter, notContains_iff]
      exact fun h => h
    have hallm : a ∈ st.stack.allPatches := by
      unfold Stack.allPatches
      simp [hall.1]
    rw [happ2] at hain
    rcases List.mem_append.mp hain with hx | hx
    · exact hall.2 hx
    · exact hfr a hx (mem_recompose.mpr (Or.inr ⟨hallm, hall.2⟩))
  · rw [hbuild]
    rfl
  · rw [hbuild]
    rfl
  · rw [hbuild]
    rfl
  · rw [hbuild]
  · rw [hbuild]
  · rw [hbuild]

theorem repair_not_idempotent_cex :
    (repairAuto r7State 100 10).result.isOk = true ∧
    (repairAuto r7State 100 10).state.stack.applied = ["r", "q", "y"] ∧
    (repairAuto (repairAuto r7State 100 10).state 100 10).result.isOk = true ∧
    (repairAuto (repairAuto r7State 100 10).state 100 10).state.stack.applied =
      ["r", "y", "q"] ∧
    (repairAuto (repairAuto r7State 100 10).state 100 10).state.stack ≠
      (repairAuto r7State 100 10).state.stack := by
  exact ⟨by decide, by decide, by decide, by decide, by decide⟩

theorem repair_idempotent_membership_witness :
    (repairAuto wState 100 10).result = Except.ok ⟨["feat-x"], none, false⟩ ∧
    (repairAuto wState 100 10).state = wState2 ∧
    repairWalk wState.repo wState.stack 10 = some ⟨["p"], [wX], wBase⟩ ∧
    repairChain wState.repo wState.stack 10 =
      some ([wX, wP], wBase, StopKind.atBase) ∧
    (([wX, wP] : List Commit).map (fun c => c.id)).Nodup ∧
    (∃ info2 : RepairInfo,
      (repairAuto wState2 100 10).result = Except.ok info2 ∧
      info2.created = [] ∧
      (∀ pn, pn ∈ (repairAuto wState2 100 10).state.stack.applied ↔
        pn ∈ wState2.stack.applied) ∧
      (repairAuto wState2 100 10).state.stack.unapplied =
        wState2.stack.unapplied ∧
      (repairAuto wState2 100 10).state.stack.hidden = wState2.stack.hidden ∧
      (repairAuto wState2 100 10).state.stack.pcommit = wState2.stack.pcommit ∧
      (repairAuto wState2 100 10).state.stack.base = wState2.stack.base ∧
      (repairAuto wState2 100 10).state.stack.branchHead =
        wState2.stack.branchHead ∧
      (repairAuto wState2 100 10).state.repo = wState2.repo ∧
      (repairAuto wState2 100 10).state.index = wState2.index ∧
      (repairAuto wState2 100 10).state.worktree = wState2.worktree) :=
  ⟨by decide, by decide, by decide, by decide, by decide,
    repair_idempotent_membership wState wState2 100 10
      ⟨["feat-x"], none, false⟩ ⟨["p"], [wX], wBase⟩ [wX, wP] wBase
      StopKind.atBase (by decide) (by decide) (by decide) (by decide)
      (by decide)⟩

/-- At `r7State` the repair succeeds and its resulting applied list is
`[r, q, y]`, while the sequence of pre-existing names found on the chain
(bottom-most first) is `[r, q]` and the chain-ordered (bottom-most first)
sequence of names bound to chain commits after the repair is `[r, y, q]`:
the resulting list is neither, because the created patch `y` is appended
after all re-identified patches instead of at its chain position. -/
theorem repair_resulting_applied_order_cex :
    (repairAuto r7State 100 10).result = Except.ok ⟨["y"], none, false⟩ ∧
    repairChain r7State.repo r7State.stack 10 =
      some ([r7X, r7Y, r7P], r7B, StopKind.atBase) ∧
    (repairAuto r7State 100 10).state.stack.applied = ["r", "q", "y"] ∧
    (([r7X, r7Y, r7P].filterMap
        (fun c => r7State.stack.findPatch c.id)).reverse = ["r", "q"]) ∧
    (([r7X, r7Y, r7P].filterMap
        (fun c =>
          (repairAuto r7State 100 10).state.stack.findPatch c.id)).reverse =
      ["r", "y", "q"]) ∧
    (["r", "q", "y"] : List PatchName) ≠ ["r", "q"] ∧
    (["r", "q", "y"] : List PatchName) ≠ ["r", "y", "q"] :=
  ⟨by decide, by decide, by decide, by decide, by decide, by decide,
    by decide⟩

/-- C1 (amended): for every successful auto repair, the resulting applied
list is the ordered sequence (bottom-most first) of pre-existing patch
names whose commit ids appear on the first-parent chain walked from the
branch head downward (each chain commit contributing the first name, in
all-patches order, bound to it), followed by the names of the newly
created patches; the walk stops at the first commit whose parent count is
not 1 or upon reaching the recorded base, and every name on the resulting
applied list is bound, in the resulting stack, to a commit of the chain.
The resulting list is not globally in chain order when a patchified commit
lies below a re-identified patch on the chain; see the counterexample. -/
theorem repair_resulting_applied_composition (st : GitState)
    (limit fuel : Nat) (info : RepairInfo) (w : RepairWalk)
    (ch : List Commit) (stop : Commit) (k : StopKind)
    (hok : (repairAuto st limit fuel).result = Except.ok info)
    (hw : repairWalk st.repo st.stack fuel = some w)
    (hc : repairChain st.repo st.stack fuel = some (ch, stop, k)) :
    (repairAuto st limit fuel).state.stack.applied =
      (ch.filterMap (fun c => st.stack.findPatch c.id)).reverse ++
        info.created ∧
    (∀ pn ∈ (repairAuto st limit fuel).state.stack.applied,
      ∃ c ∈ ch,
        (repairAuto st limit fuel).state.stack.patchCommitId pn = c.id) ∧
    (k = StopKind.atBase → stop.id = st.stack.base) ∧
    (k = StopKind.nonlinear → stop.parents.length ≠ 1) := by
  obtain ⟨ch', stop', k', hc', hww⟩ := repairWalk_some_iff.mp hw
  rw [hc] at hc'
  simp only [Option.some.injEq, Prod.mk.injEq] at hc'
  obtain ⟨h1, h2, h3⟩ := hc'
  subst h1
  subst h2
  subst h3
  obtain ⟨w', scan, s2, hprot, hw', hscan, hpatch, _, _, hstate⟩ :=
    repairAuto_ok hok
  rw [hw] at hw'
  have hweq : w' = w := (Option.some.inj hw').symm
  rw [hweq] at hpatch
  obtain ⟨ns, hcr, happ, _, _, _, _, _, _, hfr0, hfa, hpres⟩ :=
    patchifyLoop_spec limit _ _ _ _ _ hpatch
  have hcr' : info.created = ns := by simpa using hcr
  have hstk : (repairAuto st limit fuel).state.stack = s2 := by rw [hstate]
  have hra : (recomposeLists st.stack w.applied).applied = w.applied := rfl
  have hwap : w.applied = (foundOn st.stack ch).reverse := by rw [hww]
  have hwpf : w.patchify = (flushAcc st.stack ch k [] []).reverse := by
    rw [hww]
  refine ⟨?_, ?_, ?_, ?_⟩
  · rw [hstk, happ, hra, hwap, hcr']
    rfl
  · intro pn hpn
    rw [hstk, happ, hra] at hpn
    rcases List.mem_append.mp hpn with h | h
    · have hF : pn ∈ foundOn st.stack ch := by
        rw [hwap] at h
        exact List.mem_reverse.mp h
      obtain ⟨c, hcch, hfp⟩ := mem_foundOn.mp hF
      have hnotns : pn ∉ ns := fun hns =>
        hfr0 pn hns (mem_recompose.mpr (Or.inl h))
      refine ⟨c, hcch, ?_⟩
      rw [hstk, hpres pn hnotns]
      show st.stack.patchCommitId pn = c.id
      exact findPatch_bound hfp
    · obtain ⟨d, hd, hbind⟩ := forall₂_mem_left hfa pn h
      have hdch : d ∈ ch := by
        rw [hwpf] at hd
        have hdD : d ∈ flushAcc st.stack ch k [] [] := List.mem_reverse.mp hd
        have hsub := List.Sublist.subset (flushAcc_sublist st.stack ch k) hdD
        exact (List.mem_filter.mp hsub).1
      refine ⟨d, hdch, ?_⟩
      rw [hstk]
      exact hbind
  · intro hkb
    subst hkb
    have hc2 := hc
    unfold repairChain at hc2
    revert hc2
    cases hfc : findCommit st.repo st.stack.branchHead with
    | none => intro hc2; simp at hc2
    | some hcom =>
      intro hc2
      simp only at hc2
      exact chain_atBase_stop hc2
  · intro hkb
    subst hkb
    have hc2 := hc
    unfold repairChain at hc2
    revert hc2
    cases hfc : findCommit st.repo st.stack.branchHead with
    | none => intro hc2; simp at hc2
    | some hcom =>
      intro hc2
      simp only at hc2
      exact chain_nonlinear_stop hc2

theorem repair_resulting_applied_composition_witness :
    (repairAuto wState 100 10).result = Except.ok ⟨["feat-x"], none, false⟩ ∧
    repairWalk wState.repo wState.stack 10 = some ⟨["p"], [wX], wBase⟩ ∧
    repairChain wState.repo wState.stack 10 =
      some ([wX, wP], wBase, StopKind.atBase) ∧
    (repairAuto wState 100 10).state.stack.applied =
      (([wX, wP]).filterMap (fun c => wState.stack.findPatch c.id)).reverse ++
        (⟨["feat-x"], none, false⟩ : RepairInfo).created :=
  ⟨by decide, by decide, by decide,
    (repair_resulting_applied_composition wState 100 10
      ⟨["feat-x"], none, false⟩ ⟨["p"], [wX], wBase⟩ [wX, wP] wBase
      StopKind.atBase (by decide) (by decide) (by decide)).1⟩

end StackRepair
